import Mathlib

/-! # conc-rangefunc: bounded parallel iteration over range-over-func sequences

A verification development for `iter/seqiter.go`.

* The slice adapters `Slice` and `SliceIdx` are embedded as the loops they are: a
  push iterator is a function of the consumer `yield` and of the consumer's state.
* `SeqIterator2.ForEach` starts goroutines that communicate over `sendCh` and `stopCh`.
  It is embedded as what the call fixes before the goroutines start (`Setup`) and a
  transition system over the shared state (`State`) whose steps are the visible actions
  of the bridging goroutine and of the worker tasks.  A schedule is a list of actions;
  `Setup.exec` runs a schedule, so every interleaving is a schedule and every schedule
  can be evaluated.

Conventions of the embedding:

* `sendCh` is a buffered channel of capacity `MaxGoroutines ≥ 1`, a FIFO list; `stopCh` is
  only ever closed, so it is a flag, and `stop` (a `sync.OnceFunc`) sets it.
* The `select` of the bridging goroutine is a choice between its ready cases, as in Go: the
  scheduler of the model picks `send` or `stop` whenever both can proceed.  Go makes this
  choice at random; the model does not say how often either case is picked, and what is
  proved about unending runs is stated in terms of how often `send` is picked while `stop`
  is ready.
* A task takes an item from `sendCh` in one step and enters the callback with it in another,
  so tasks can enter the callback in an order other than the one of the source.  A call has
  an end; the effect of the callback on what it captures and its answer are applied there.
* The sequence is driven by the bridging goroutine alone and honours a stop: it is the list
  of items it would hand to the loop body, `none` after the last.
* ForEach returns when `wg.Wait()` does, that is when every task has ended; the bridging
  goroutine is not part of the wait group.
-/

namespace Iter

variable {σ α T T1 T2 : Type}

/-! ## Slice adapters -/

/-- A pointer `&s[i]` into the backing array of a slice: the address of slot `idx`. -/
structure Ptr where
  idx : Nat
deriving DecidableEq, Repr

/-- Read through a pointer: `*p` in a backing array `mem`. -/
def Ptr.load (p : Ptr) (mem : List T) : Option T := mem[p.idx]?

/-- Write through a pointer: `*p = c` in a backing array `mem`. -/
def Ptr.store (p : Ptr) (c : T) (mem : List T) : List T := mem.set p.idx c

/-- The loop `for i := range s { if !body(i) { return } }` over the indices still to visit.
The consumer's state is threaded through the calls of the body. -/
def rangeLoop (body : Nat → σ → σ × Bool) : List Nat → σ → σ
  | [], st => st
  | i :: rest, st =>
    match body i st with
    | (st', true) => rangeLoop body rest st'
    | (st', false) => st'

/-- Slice returns a new sequence from a slice: it yields `&s[i]` for each index of `s`. -/
def Slice (s : List T) (yield : Ptr → σ → σ × Bool) (st : σ) : σ :=
  rangeLoop (fun i st => yield ⟨i⟩ st) (List.range s.length) st

/-- SliceIdx returns a new sequence of (index, value) from a slice: it yields `(i, &s[i])`. -/
def SliceIdx (s : List T) (yield : Nat → Ptr → σ → σ × Bool) (st : σ) : σ :=
  rangeLoop (fun i st => yield i ⟨i⟩ st) (List.range s.length) st

/-- A consumer that also records, in order, every item it is called with. -/
def recording (yield : α → σ → σ × Bool) (a : α) (st : σ × List α) : (σ × List α) × Bool :=
  (((yield a st.1).1, st.2 ++ [a]), (yield a st.1).2)

/-- State of a consumer before its call at index `i`, when no earlier call stopped the loop. -/
def stateBefore (body : Nat → σ → σ × Bool) (st : σ) : Nat → σ
  | 0 => st
  | i + 1 => (body i (stateBefore body st i)).1

/-- What the consumer answers at index `i`, when no earlier call stopped the loop. -/
def answerAt (body : Nat → σ → σ × Bool) (st : σ) (i : Nat) : Bool :=
  (body i (stateBefore body st i)).2

/-! ## Sequences as seen by the goroutine that ranges over them -/

/-- An `iter.Seq2` as seen by the single goroutine that ranges over it: the item handed to the
loop body by pull number `i`, or `none` when the sequence has ended. -/
abbrev Source (α : Type) := Nat → Option α

/-- The source that produces the items of a finite list in order. -/
def Source.ofList (l : List α) : Source α := fun i => l[i]?

/-- All items a push iterator yields to a consumer that never stops it. -/
def collect (seq : (α → List α → List α × Bool) → List α → List α) : List α :=
  seq (fun a acc => (acc ++ [a], true)) []

/-- The unbounded sequence 0, 1, 2, ... -/
def naturals : Source Nat := fun i => some i

/-! ## ForEach -/

/-- SeqIterator2 configures ForEach; `MaxGoroutines` is a Go `int`. -/
structure SeqIterator2 where
  MaxGoroutines : Int
deriving DecidableEq, Repr

/-- What a call of ForEach has fixed when it starts its goroutines: the capacity of `sendCh`,
which is also the number of worker tasks, the sequence and the callback.  The callback acts on
a state `σ` (whatever it captures) and returns whether to continue. -/
structure Setup (σ α : Type) where
  maxGoroutines : Nat
  input : Source α
  f : α → σ → σ × Bool

/-- The part of `SeqIterator2.ForEach` that runs before any goroutine starts.
`defaultMaxGoroutines` stands for the value of `defaultMaxGoroutines()`.
`make(chan value, n)` panics for a negative `n`: the result is then `none`. -/
def SeqIterator2.ForEach (defaultMaxGoroutines : Int) (iter : SeqIterator2)
    (input : Source (T1 × T2)) (f : T1 → T2 → σ → σ × Bool) : Option (Setup σ (T1 × T2)) :=
  let iter : SeqIterator2 :=
    if iter.MaxGoroutines == 0 then { iter with MaxGoroutines := defaultMaxGoroutines } else iter
  if iter.MaxGoroutines < 0 then none
  else some { maxGoroutines := iter.MaxGoroutines.toNat, input := input, f := fun v => f v.1 v.2 }

/-- The method `SeqIterator.ForEach`: the sequence of single values is wrapped into a sequence
of pairs with `struct{}{}` and the callback into one that ignores the second component. -/
def SeqIterator.ForEach (defaultMaxGoroutines : Int) (iter : SeqIterator2)
    (input : Source T) (f : T → σ → σ × Bool) : Option (Setup σ (T × Unit)) :=
  SeqIterator2.ForEach defaultMaxGoroutines iter
    (fun i => (input i).map (fun v => (v, ()))) (fun v _ => f v)

/-- The function `ForEachSeq` runs `ForEach` of the zero value of `SeqIterator`. -/
def ForEachSeq (defaultMaxGoroutines : Int) (input : Source T) (f : T → σ → σ × Bool) :
    Option (Setup σ (T × Unit)) :=
  SeqIterator.ForEach defaultMaxGoroutines { MaxGoroutines := 0 } input f

/-- The function `ForEachSeq2` runs `ForEach` of the zero value of `SeqIterator2`. -/
def ForEachSeq2 (defaultMaxGoroutines : Int) (input : Source (T1 × T2))
    (f : T1 → T2 → σ → σ × Bool) : Option (Setup σ (T1 × T2)) :=
  SeqIterator2.ForEach defaultMaxGoroutines { MaxGoroutines := 0 } input f

/-- Where the bridging goroutine (`go func() { defer close(sendCh); for ... range input
{ select ... } }()`) stands. -/
inductive Bridge (α : Type) where
  /-- At the head of the range loop, about to pull the next item from `input`. -/
  | ranging
  /-- In the `select`, holding the item `v` it offers to `sendCh`. -/
  | selecting (v : α)
  /-- Returned; the deferred `close(sendCh)` has run. -/
  | finished
deriving DecidableEq, Repr

/-- Where a worker (`task`) stands. -/
inductive Worker (α : Type) where
  /-- At `for v := range sendCh`, waiting for an item. -/
  | receiving
  /-- Has received `v` from `sendCh` and has not entered `f` yet. -/
  | holding (v : α)
  /-- Inside `f(v.v1, v.v2)`. -/
  | calling (v : α)
  /-- Left the loop; the deferred `stop()` has not run yet. -/
  | returning
  /-- The deferred `stop()` has run and the task has ended. -/
  | finished
deriving DecidableEq, Repr

/-- The state shared by the goroutines of one call of ForEach.  The lists `taken`, `calls` and
`rets` record the items that were received from `sendCh`, on which the callback was entered
and which it returned from, each in the order in which that happened; nothing reads them. -/
structure State (σ α : Type) where
  /-- Number of items pulled from `input` so far. -/
  pulled : Nat
  bridge : Bridge α
  /-- Buffer of `sendCh`, oldest item first. -/
  sendCh : List α
  sendChClosed : Bool
  stopChClosed : Bool
  /-- The tasks started by `wg.Go(task)`. -/
  tasks : List (Worker α)
  /-- The state the callback acts on. -/
  mem : σ
  taken : List α
  calls : List α
  rets : List α

/-- The state when all goroutines have been started and none has moved:
`sendCh` and `stopCh` are open and empty, `MaxGoroutines` tasks wait for an item. -/
def Setup.start (p : Setup σ α) (mem : σ) : State σ α :=
  { pulled := 0, bridge := .ranging, sendCh := [], sendChClosed := false, stopChClosed := false,
    tasks := List.replicate p.maxGoroutines .receiving, mem := mem, taken := [], calls := [],
    rets := [] }

/-- The scheduler's choices: the bridging goroutine pulls the next item, or its `select` takes
the send case or the stop case, or the worker with the given number moves. -/
inductive Action where
  | pull
  | send
  | stop
  | worker (i : Nat)
deriving DecidableEq, Repr

/-- One action of one goroutine, `none` when that goroutine cannot move (it is blocked or
has ended).

* `pull`: the range loop asks `input` for the next item and enters the `select` with it, or
  `input` has ended, the goroutine returns and `close(sendCh)` runs.
* `send`: `case sendCh <- value{v1, v2}`, possible when the buffer has room.
* `stop`: `case <-stopCh: return`, possible when `stopCh` is closed; `close(sendCh)` runs.
* `worker i`: a receiving worker takes the oldest item, or leaves the loop when `sendCh` is
  closed and empty; a worker that holds an item enters `f` with it; a calling worker leaves
  `f` and goes on or, when `f` returned false, leaves the loop; a returning worker runs
  `stop()`, which closes `stopCh` (once). -/
def Setup.step (p : Setup σ α) (s : State σ α) : Action → Option (State σ α)
  | .pull =>
    match s.bridge with
    | .ranging =>
      match p.input s.pulled with
      | some v => some { s with bridge := .selecting v, pulled := s.pulled + 1 }
      | none => some { s with bridge := .finished, sendChClosed := true }
    | _ => none
  | .send =>
    match s.bridge with
    | .selecting v =>
      if s.sendCh.length < p.maxGoroutines then
        some { s with sendCh := s.sendCh ++ [v], bridge := .ranging }
      else none
    | _ => none
  | .stop =>
    match s.bridge with
    | .selecting _ =>
      if s.stopChClosed then some { s with bridge := .finished, sendChClosed := true }
      else none
    | _ => none
  | .worker i =>
    match s.tasks[i]? with
    | some .receiving =>
      match s.sendCh with
      | v :: rest =>
        some { s with sendCh := rest, tasks := s.tasks.set i (.holding v),
                      taken := s.taken ++ [v] }
      | [] =>
        if s.sendChClosed then some { s with tasks := s.tasks.set i .returning } else none
    | some (.holding v) =>
      some { s with tasks := s.tasks.set i (.calling v), calls := s.calls ++ [v] }
    | some (.calling v) =>
      some { s with mem := (p.f v s.mem).1, rets := s.rets ++ [v],
                    tasks := s.tasks.set i (if (p.f v s.mem).2 then .receiving else .returning) }
    | some .returning => some { s with stopChClosed := true, tasks := s.tasks.set i .finished }
    | _ => none

/-- Run a schedule: `none` when some action of it cannot be taken. -/
def Setup.exec (p : Setup σ α) : State σ α → List Action → Option (State σ α)
  | s, [] => some s
  | s, a :: rest => (p.step s a).bind (fun s' => p.exec s' rest)

/-- Whether a task has ended. -/
def Worker.isFinished : Worker α → Bool
  | .finished => true
  | _ => false

/-- Whether a task is inside the callback. -/
def Worker.isCalling : Worker α → Bool
  | .calling _ => true
  | _ => false

/-- Whether a task has received an item and not entered the callback with it yet. -/
def Worker.isHolding : Worker α → Bool
  | .holding _ => true
  | _ => false

/-- The item a task is processing, if it is inside the callback. -/
def Worker.item : Worker α → Option α
  | .calling v => some v
  | _ => none

/-- The item a task has received and not entered the callback with yet, if any. -/
def Worker.inHand : Worker α → Option α
  | .holding v => some v
  | _ => none

/-- Whether `wg.Wait()` returns, and with it ForEach: every task has ended. -/
def State.returned (s : State σ α) : Bool := s.tasks.all Worker.isFinished

/-- Number of callback invocations in progress. -/
def State.inProgress (s : State σ α) : Nat := (s.tasks.filter Worker.isCalling).length

/-- Number of tasks that have received an item and not entered the callback with it yet. -/
def State.holding (s : State σ α) : Nat := (s.tasks.filter Worker.isHolding).length

/-- The item the bridging goroutine holds in its `select`, if any. -/
def Bridge.held : Bridge α → List α
  | .selecting v => [v]
  | _ => []

/-- The state of the callback after the calls on the given items, in that order. -/
def applyAll (f : α → σ → σ × Bool) (vs : List α) (st : σ) : σ :=
  vs.foldl (fun st v => (f v st).1) st

/-- Whether the callback answers "continue" on each of the given items, called in order. -/
def allContinue (f : α → σ → σ × Bool) : List α → σ → Bool
  | [], _ => true
  | v :: vs, st => (f v st).2 && allContinue f vs (f v st).1

/-- The plain sequential loop "for each item in source order: if !f(item) then stop":
the final state of the callback and the items it was called on. -/
def sequentialLoop (f : α → σ → σ × Bool) : List α → σ → σ × List α
  | [], st => (st, [])
  | v :: vs, st =>
    if (f v st).2 then ((sequentialLoop f vs (f v st).1).1, v :: (sequentialLoop f vs (f v st).1).2)
    else ((f v st).1, [v])

/-- The callback of the benchmark: `*p = c; return true`. -/
def setTo (c : T) (p : Ptr) (mem : List T) : List T × Bool := (p.store c mem, true)

/-- The callback that answers "stop" when it sees 100 and "continue" otherwise; `g` is what it
does to its state. -/
def stopAt100 (g : Nat → σ → σ) (v : Nat) (st : σ) : σ × Bool := (g v st, decide (v ≠ 100))

/-- One step of one goroutine, as a relation between states, with the action that takes it.
A worker is singled out by splitting the task list around it. -/
inductive Step (p : Setup σ α) : State σ α → Action → State σ α → Prop
  | pullItem (s : State σ α) (v : α) :
      s.bridge = .ranging → p.input s.pulled = some v →
      Step p s .pull { s with bridge := .selecting v, pulled := s.pulled + 1 }
  | pullEnd (s : State σ α) :
      s.bridge = .ranging → p.input s.pulled = none →
      Step p s .pull { s with bridge := .finished, sendChClosed := true }
  | send (s : State σ α) (v : α) :
      s.bridge = .selecting v → s.sendCh.length < p.maxGoroutines →
      Step p s .send { s with sendCh := s.sendCh ++ [v], bridge := .ranging }
  | stop (s : State σ α) (v : α) :
      s.bridge = .selecting v → s.stopChClosed = true →
      Step p s .stop { s with bridge := .finished, sendChClosed := true }
  | recv (s : State σ α) (pre post : List (Worker α)) (v : α) (rest : List α) :
      s.tasks = pre ++ .receiving :: post → s.sendCh = v :: rest →
      Step p s (.worker pre.length)
        { s with sendCh := rest, tasks := pre ++ .holding v :: post,
                 taken := s.taken ++ [v] }
  | drained (s : State σ α) (pre post : List (Worker α)) :
      s.tasks = pre ++ .receiving :: post → s.sendCh = [] → s.sendChClosed = true →
      Step p s (.worker pre.length) { s with tasks := pre ++ .returning :: post }
  | enter (s : State σ α) (pre post : List (Worker α)) (v : α) :
      s.tasks = pre ++ .holding v :: post →
      Step p s (.worker pre.length)
        { s with tasks := pre ++ .calling v :: post, calls := s.calls ++ [v] }
  | ret (s : State σ α) (pre post : List (Worker α)) (v : α) :
      s.tasks = pre ++ .calling v :: post →
      Step p s (.worker pre.length)
        { s with mem := (p.f v s.mem).1, rets := s.rets ++ [v],
                 tasks := pre ++ (if (p.f v s.mem).2 then .receiving else .returning)
                           :: post }
  | stopCall (s : State σ α) (pre post : List (Worker α)) :
      s.tasks = pre ++ .returning :: post →
      Step p s (.worker pre.length)
        { s with stopChClosed := true, tasks := pre ++ .finished :: post }

/-! ## Invariants and measures used in the proofs -/

/-- How far a task has advanced towards its end. -/
def Worker.rank : Worker α → Nat
  | .returning => 1
  | .finished => 2
  | _ => 0

/-- Whether the bridging goroutine has ended, as a number. -/
def Bridge.rank : Bridge α → Nat
  | .finished => 1
  | _ => 0

/-- A count that every step increases: pulls, sends, receives, entries, returns and exits so
far. -/
def State.progress (s : State σ α) : Nat :=
  s.pulled + 2 * s.taken.length + s.sendCh.length + s.calls.length + s.rets.length
    + (s.tasks.map Worker.rank).sum + s.bridge.rank

/-- The items that have left the source and were not dropped: those the tasks have received,
those in the buffer and the one held in the `select`, oldest first. -/
def State.handled (s : State σ α) : List α := s.taken ++ s.sendCh ++ s.bridge.held

/-- Facts that hold in every state of every run, for every callback and every source. -/
structure Inv (p : Setup σ α) (mem0 : σ) (s : State σ α) : Prop where
  tasks_len : s.tasks.length = p.maxGoroutines
  buf_le : s.sendCh.length ≤ p.maxGoroutines
  closed_iff : s.sendChClosed = true ↔ s.bridge = .finished
  items : s.handled.map some = (List.range s.handled.length).map p.input
  pulled_eq : s.pulled = s.handled.length ∨
    (s.pulled = s.handled.length + 1 ∧ s.bridge = .finished ∧ s.stopChClosed = true)
  pulled_some : ∀ j, j < s.pulled → (p.input j).isSome = true
  fin_stop : ∀ w ∈ s.tasks, w = .finished → s.stopChClosed = true
  stop_fin : s.stopChClosed = true → ∃ w ∈ s.tasks, w = .finished
  in_hand : s.taken.Perm (s.calls ++ s.tasks.filterMap Worker.inHand)
  inflight : s.calls.Perm (s.rets ++ s.tasks.filterMap Worker.item)
  memfold : s.mem = applyAll p.f s.rets mem0

/-- With a callback that never stops, a task leaves its loop only after the source has ended
and the buffer has been emptied. -/
structure InvContinue (p : Setup σ α) (s : State σ α) : Prop where
  left_loop : (s.stopChClosed = true ∨ ∃ w ∈ s.tasks, w = .returning ∨ w = .finished) →
    s.sendChClosed = true ∧ s.sendCh = []
  ended : s.sendChClosed = true → p.input s.pulled = none ∧ s.pulled = s.handled.length

/-- What holds of a run with one worker after the task has left its loop: the last call
answered "stop", or every call answered "continue" and the source has ended and the queue is
empty. -/
def LeftLoop (p : Setup σ α) (mem0 : σ) (s : State σ α) : Prop :=
  (∃ r v, s.rets = r ++ [v] ∧ allContinue p.f r mem0 = true ∧
      (p.f v (applyAll p.f r mem0)).2 = false) ∨
  (allContinue p.f s.rets mem0 = true ∧ s.sendCh = [] ∧ s.sendChClosed = true ∧
      p.input s.pulled = none ∧ s.pulled = s.handled.length)

/-- What holds of the single task of a run with `MaxGoroutines = 1`, by where it stands. -/
def OneTask (p : Setup σ α) (mem0 : σ) (s : State σ α) : Worker α → Prop
  | .receiving => s.taken = s.calls ∧ s.calls = s.rets ∧ allContinue p.f s.rets mem0 = true
  | .holding v =>
      s.taken = s.calls ++ [v] ∧ s.calls = s.rets ∧ allContinue p.f s.rets mem0 = true
  | .calling v =>
      s.taken = s.calls ∧ s.calls = s.rets ++ [v] ∧ allContinue p.f s.rets mem0 = true
  | _ => s.taken = s.calls ∧ s.calls = s.rets ∧ LeftLoop p mem0 s

/-- Facts that hold in every state of a run with one worker. -/
structure InvOne (p : Setup σ α) (mem0 : σ) (s : State σ α) : Prop where
  task : ∃ w, s.tasks = [w] ∧ OneTask p mem0 s w
  stop_fin : s.stopChClosed = true → s.tasks = [.finished]
  closed_end : s.sendChClosed = true →
    (p.input s.pulled = none ∧ s.pulled = s.handled.length) ∨ s.stopChClosed = true

/-- How many steps the bridging goroutine can still take when no worker moves any more. -/
def State.bridgeSteps (p : Setup σ α) (s : State σ α) : Nat :=
  2 * (p.maxGoroutines - s.sendCh.length) +
    (match s.bridge with
     | .ranging => 2
     | .selecting _ => 1
     | .finished => 0)

/-- How many items the bridging goroutine can still pull when no worker moves any more. -/
def State.pullsLeft (p : Setup σ α) (s : State σ α) : Nat :=
  (p.maxGoroutines - s.sendCh.length) +
    (match s.bridge with
     | .ranging => 1
     | _ => 0)

/-- Steps a task still takes when it gets no further item. -/
def Worker.cost : Worker α → Nat
  | .receiving => 2
  | .holding _ => 4
  | .calling _ => 3
  | .returning => 1
  | .finished => 0

/-- Steps the bridging goroutine still takes when it takes the stop case at once. -/
def Bridge.cost : Bridge α → Nat
  | .ranging => 2
  | .selecting _ => 1
  | .finished => 0

/-- Whether a task is about to raise the stop signal or has raised it: it has item 100 in hand,
is inside the callback with it, or has left its loop. -/
def Worker.stopping : Worker (Nat × Unit) → Bool
  | .receiving => false
  | .holding v => v.1 == 100
  | .calling v => v.1 == 100
  | .returning => true
  | .finished => true

/-- Whether the stop signal is raised or about to be: `stopCh` is closed or some task is
stopping. -/
def State.stopDue (s : State σ (Nat × Unit)) : Bool :=
  s.stopChClosed || s.tasks.any Worker.stopping

/-- Whether an action is a late send: the `select` takes the send case although the stop
signal is raised or about to be. -/
def State.lateSend (s : State σ (Nat × Unit)) (a : Action) : Bool :=
  a == .send && s.stopDue

/-- Number of late sends in a schedule run from a state. -/
def Setup.lateSends (p : Setup σ (Nat × Unit)) : State σ (Nat × Unit) → List Action → Nat
  | _, [] => 0
  | s, a :: rest =>
    (if s.lateSend a then 1 else 0) +
      (match p.step s a with
       | some s' => p.lateSends s' rest
       | none => 0)

/-- A bound on the steps a run over the naturals with the callback that stops at 100 still
takes when no send is late: once the stop signal is due or `sendCh` is closed, the steps that
end the bridging goroutine, empty the queue and end the tasks; before, the steps that are left
until item 100 has been received. -/
def State.stepsLeft (p : Setup σ (Nat × Unit)) (s : State σ (Nat × Unit)) : Nat :=
  if s.stopDue = true ∨ s.sendChClosed = true then
    (s.tasks.map Worker.cost).sum + 3 * s.sendCh.length + s.bridge.cost
  else
    (7 * p.maxGoroutines + 3) + ((501 + 2 * p.maxGoroutines) - s.progress)

/-- Once the callback has returned from item 100, some task has left its loop. -/
def Stopped100 (s : State σ (Nat × Unit)) : Prop :=
  (∃ v ∈ s.rets, v.1 = 100) → ∃ w ∈ s.tasks, w = Worker.returning ∨ w = Worker.finished

/-- The actions `sched k`, `sched (k + 1)`, ..., `n` of them: a piece of an unending
schedule. -/
def segment (sched : Nat → Action) : Nat → Nat → List Action
  | _, 0 => []
  | k, n + 1 => sched k :: segment sched (k + 1) n


/-- Whether an action takes the send case of the `select` while its stop case is ready. -/
def State.raceSend (s : State σ α) (a : Action) : Bool :=
  a == .send && s.stopChClosed

/-- A scheduler that starves no task, on an unending run: a task that can move at every moment
from some moment on is moved at some later moment. -/
def FairToTasks (p : Setup σ α) (run : Nat → State σ α) (sched : Nat → Action) : Prop :=
  ∀ i n, (∀ k, n ≤ k → ∃ s', p.step (run k) (.worker i) = some s') →
    ∃ k, n ≤ k ∧ sched k = .worker i
/-! ## The step function and the step relation -/

theorem split_at_index {β : Type} (l : List β) (i : Nat) (w : β) (h : l[i]? = some w) :
    ∃ pre post, l = pre ++ w :: post ∧ pre.length = i ∧
      ∀ w', l.set i w' = pre ++ w' :: post := by
  induction l generalizing i with
  | nil => simp at h
  | cons x xs ih =>
    cases i with
    | zero =>
      simp at h
      subst h
      exact ⟨[], xs, by simp, by simp, by intro w'; simp⟩
    | succ j =>
      simp at h
      obtain ⟨pre, post, h1, h2, h3⟩ := ih j h
      refine ⟨x :: pre, post, by simp [h1], by simp [h2], ?_⟩
      intro w'
      simp [h3]

theorem step_sound (p : Setup σ α) (s s' : State σ α) (a : Action)
    (h : p.step s a = some s') : Step p s a s' := by
  cases a with
  | pull =>
    simp only [Setup.step] at h
    split at h
    · rename_i hb
      split at h
      · rename_i v hv
        simp at h
        subst h
        exact Step.pullItem s v hb hv
      · rename_i hv
        simp at h
        subst h
        exact Step.pullEnd s hb hv
    · simp at h
  | send =>
    simp only [Setup.step] at h
    split at h
    · rename_i v hb
      split at h
      · rename_i hlt
        simp at h
        subst h
        exact Step.send s v hb hlt
      · simp at h
    · simp at h
  | stop =>
    simp only [Setup.step] at h
    split at h
    · rename_i v hb
      split at h
      · rename_i hc
        simp at h
        subst h
        exact Step.stop s v hb hc
      · simp at h
    · simp at h
  | worker i =>
    simp only [Setup.step] at h
    split at h
    · rename_i hw
      obtain ⟨pre, post, h1, h2, h3⟩ := split_at_index _ _ _ hw
      subst h2
      split at h
      · rename_i v rest hs
        simp at h
        subst h
        rw [h3]
        exact Step.recv s pre post v rest h1 hs
      · rename_i hs
        split at h
        · rename_i hc
          simp at h
          subst h
          rw [h3]
          exact Step.drained s pre post h1 hs hc
        · simp at h
    · rename_i v hw
      obtain ⟨pre, post, h1, h2, h3⟩ := split_at_index _ _ _ hw
      subst h2
      simp at h
      subst h
      rw [h3]
      exact Step.enter s pre post v h1
    · rename_i v hw
      obtain ⟨pre, post, h1, h2, h3⟩ := split_at_index _ _ _ hw
      subst h2
      simp at h
      subst h
      rw [h3]
      exact Step.ret s pre post v h1
    · rename_i hw
      obtain ⟨pre, post, h1, h2, h3⟩ := split_at_index _ _ _ hw
      subst h2
      simp at h
      subst h
      rw [h3]
      exact Step.stopCall s pre post h1
    · simp at h

theorem getElem?_split {β : Type} (pre post : List β) (w : β) :
    (pre ++ w :: post)[pre.length]? = some w := by
  induction pre with
  | nil => simp
  | cons x xs ih =>
    simp only [List.cons_append, List.length_cons, List.getElem?_cons_succ]
    exact ih

theorem set_split {β : Type} (pre post : List β) (w w' : β) :
    (pre ++ w :: post).set pre.length w' = pre ++ w' :: post := by
  induction pre with
  | nil => simp
  | cons x xs ih => simp [ih]

theorem step_complete (p : Setup σ α) (s s' : State σ α) (a : Action) (h : Step p s a s') :
    p.step s a = some s' := by
  cases h with
  | pullItem v hb hv => simp [Setup.step, hb, hv]
  | pullEnd hb hv => simp [Setup.step, hb, hv]
  | send v hb hlt => simp [Setup.step, hb, hlt]
  | stop v hb hc => simp [Setup.step, hb, hc]
  | recv pre post v rest ht hs =>
    simp only [Setup.step]
    rw [ht, getElem?_split, set_split]
    simp [hs]
  | drained pre post ht hs hc =>
    simp only [Setup.step]
    rw [ht, getElem?_split, set_split]
    simp [hs, hc]
  | enter pre post v ht =>
    simp only [Setup.step]
    rw [ht, getElem?_split]
    simp [set_split]
  | ret pre post v ht =>
    simp only [Setup.step]
    rw [ht, getElem?_split]
    simp [set_split]
  | stopCall pre post ht =>
    simp only [Setup.step]
    rw [ht, getElem?_split]
    simp [set_split]

/-- An invariant of the steps holds after every schedule. -/
theorem exec_induction (p : Setup σ α) (P : State σ α → Prop)
    (hstep : ∀ s a s', P s → Step p s a s' → P s')
    (s s' : State σ α) (acts : List Action) (h0 : P s) (h : p.exec s acts = some s') : P s' := by
  induction acts generalizing s with
  | nil =>
    simp [Setup.exec] at h
    subst h
    exact h0
  | cons a rest ih =>
    simp only [Setup.exec] at h
    cases hs : p.step s a with
    | none => simp [hs] at h
    | some s1 =>
      simp [hs] at h
      exact ih s1 (hstep s a s1 h0 (step_sound p s s1 a hs)) h

/-! ## Invariants of every run -/

@[simp] theorem item_receiving : (Worker.receiving : Worker α).item = none := rfl

@[simp] theorem item_holding (v : α) : (Worker.holding v).item = none := rfl

@[simp] theorem item_calling (v : α) : (Worker.calling v).item = some v := rfl

@[simp] theorem item_returning : (Worker.returning : Worker α).item = none := rfl

@[simp] theorem item_finished : (Worker.finished : Worker α).item = none := rfl

@[simp] theorem inHand_receiving : (Worker.receiving : Worker α).inHand = none := rfl

@[simp] theorem inHand_holding (v : α) : (Worker.holding v).inHand = some v := rfl

@[simp] theorem inHand_calling (v : α) : (Worker.calling v).inHand = none := rfl

@[simp] theorem inHand_returning : (Worker.returning : Worker α).inHand = none := rfl

@[simp] theorem inHand_finished : (Worker.finished : Worker α).inHand = none := rfl

theorem perm_insert (A B C : List α) (v : α) :
    (A ++ (B ++ C) ++ [v]).Perm (A ++ (B ++ v :: C)) := by
  have h1 := List.perm_append_singleton v (A ++ (B ++ C))
  have h2 : (A ++ (B ++ v :: C)).Perm (v :: (A ++ (B ++ C))) := by
    rw [← List.append_assoc, ← List.append_assoc]
    exact List.perm_middle
  exact h1.trans h2.symm

theorem perm_move (A B C : List α) (v : α) :
    (A ++ (B ++ v :: C)).Perm (A ++ [v] ++ (B ++ C)) := by
  have h2 : (A ++ (B ++ v :: C)).Perm (v :: (A ++ (B ++ C))) := by
    rw [← List.append_assoc, ← List.append_assoc]
    exact List.perm_middle
  have h3 : (A ++ [v] ++ (B ++ C)).Perm (v :: (A ++ (B ++ C))) := by
    rw [List.append_assoc]
    exact List.perm_middle
  exact h2.trans h3.symm

theorem applyAll_append (f : α → σ → σ × Bool) (xs ys : List α) (st : σ) :
    applyAll f (xs ++ ys) st = applyAll f ys (applyAll f xs st) := by
  simp [applyAll, List.foldl_append]

theorem mem_split_other (pre post : List (Worker α)) (w w' x : Worker α)
    (hx : x ∈ pre ++ w :: post) (hne : x ≠ w) : x ∈ pre ++ w' :: post := by
  simp only [List.mem_append, List.mem_cons] at hx ⊢
  rcases hx with h | h | h
  · exact Or.inl h
  · exact absurd h hne
  · exact Or.inr (Or.inr h)

theorem filterMap_replicate_receiving (n : Nat) (g : Worker α → Option α)
    (hg : g .receiving = none) :
    (List.replicate n (Worker.receiving : Worker α)).filterMap g = [] := by
  rw [List.filterMap_eq_nil_iff]
  intro w hw
  simp at hw
  rw [hw.2]
  exact hg

theorem inv_start (p : Setup σ α) (mem0 : σ) : Inv p mem0 (p.start mem0) := by
  refine ⟨?_, ?_, ?_, ?_, ?_, ?_, ?_, ?_, ?_, ?_, ?_⟩
  · simp [Setup.start]
  · simp [Setup.start]
  · simp [Setup.start]
  · simp [Setup.start, State.handled, Bridge.held]
  · simp [Setup.start, State.handled, Bridge.held]
  · simp [Setup.start]
  · intro w hw hf
    simp [Setup.start] at hw
    rw [hw.2] at hf
    cases hf
  · intro h
    simp [Setup.start] at h
  · simp only [Setup.start]
    rw [filterMap_replicate_receiving _ _ rfl]
    simp
  · simp only [Setup.start]
    rw [filterMap_replicate_receiving _ _ rfl]
    simp
  · simp [Setup.start, applyAll]

/-- The part of the invariants that concerns the tasks is kept by a step of a task that neither
ends nor was ended. -/
theorem fin_stop_other (s : State σ α) (pre post : List (Worker α)) (w w' : Worker α)
    (ht : s.tasks = pre ++ w :: post) (hw : w ≠ .finished) (hw' : w' ≠ .finished)
    (h6 : ∀ x ∈ s.tasks, x = .finished → s.stopChClosed = true)
    (h7 : s.stopChClosed = true → ∃ x ∈ s.tasks, x = .finished) :
    (∀ x ∈ pre ++ w' :: post, x = .finished → s.stopChClosed = true) ∧
    (s.stopChClosed = true → ∃ x ∈ pre ++ w' :: post, x = .finished) := by
  constructor
  · intro x hx hf
    apply h6 x _ hf
    rw [ht]
    exact mem_split_other pre post w' w x hx (by rw [hf]; exact Ne.symm hw')
  · intro hc
    obtain ⟨x, hx, hf⟩ := h7 hc
    rw [ht] at hx
    exact ⟨x, mem_split_other pre post w w' x hx (by rw [hf]; exact Ne.symm hw), hf⟩

theorem inv_step (p : Setup σ α) (mem0 : σ) (s s' : State σ α) (a : Action)
    (hi : Inv p mem0 s) (h : Step p s a s') : Inv p mem0 s' := by
  obtain ⟨h1, h2, h3, h4, h5, h9, h6, h10, h11, h7, h8⟩ := hi
  cases h with
  | pullItem v hb hv =>
    have hp : s.pulled = s.handled.length := by
      rcases h5 with h | ⟨_, h, _⟩
      · exact h
      · rw [hb] at h
        cases h
    refine ⟨h1, h2, ?_, ?_, ?_, ?_, h6, h10, h11, h7, h8⟩
    · simp only [hb] at h3
      simp [h3]
    · simp only [State.handled, hb, Bridge.held, List.append_nil] at h4 hp ⊢
      rw [List.length_append, List.map_append, h4]
      simp only [List.length_singleton, List.range_succ, List.map_append, List.map_cons,
        List.map_nil]
      rw [← hp, hv]
    · left
      simp only [State.handled, hb, Bridge.held, List.append_nil] at hp ⊢
      simp only [List.length_append, List.length_singleton] at hp ⊢
      omega
    · intro j hj
      simp only at hj
      rcases Nat.lt_succ_iff_lt_or_eq.mp hj with h | h
      · exact h9 j h
      · rw [h, hv]
        rfl
  | pullEnd hb hv =>
    refine ⟨h1, h2, by simp, ?_, ?_, h9, h6, h10, h11, h7, h8⟩
    · simpa [State.handled, hb, Bridge.held] using h4
    · left
      rcases h5 with h | ⟨_, h, _⟩
      · simpa [State.handled, hb, Bridge.held] using h
      · rw [hb] at h
        cases h
  | send v hb hlt =>
    have hp : s.pulled = s.handled.length := by
      rcases h5 with h | ⟨_, h, _⟩
      · exact h
      · rw [hb] at h
        cases h
    refine ⟨h1, ?_, ?_, ?_, ?_, h9, h6, h10, h11, h7, h8⟩
    · simp
      omega
    · simp only [hb] at h3
      simp [h3]
    · simpa [State.handled, hb, Bridge.held] using h4
    · left
      simpa [State.handled, hb, Bridge.held] using hp
  | stop v hb hc =>
    have hp : s.pulled = s.handled.length := by
      rcases h5 with h | ⟨_, h, _⟩
      · exact h
      · rw [hb] at h
        cases h
    refine ⟨h1, h2, by simp, ?_, ?_, h9, h6, h10, h11, h7, h8⟩
    · simp only [State.handled, hb, Bridge.held] at h4 ⊢
      simp only [List.append_nil]
      rw [List.length_append, List.map_append] at h4
      simp only [List.length_singleton, List.range_succ, List.map_append, List.map_cons,
        List.map_nil] at h4
      rw [List.map_append]
      exact List.append_inj_left' h4 (by simp)
    · right
      simp only [State.handled, hb, Bridge.held] at hp ⊢
      simp only [List.length_append, List.length_singleton, List.append_nil,
        List.length_nil] at hp ⊢
      exact ⟨by omega, trivial, hc⟩
  | recv pre post v rest ht hs =>
    obtain ⟨k1, k2⟩ := fin_stop_other s pre post .receiving (.holding v) ht (by simp) (by simp)
      h6 h10
    refine ⟨?_, ?_, h3, ?_, ?_, h9, k1, k2, ?_, ?_, h8⟩
    · simpa [ht] using h1
    · simp only [hs, List.length_cons] at h2
      simp only
      omega
    · simpa [State.handled, hs] using h4
    · simpa [State.handled, hs] using h5
    · simp only [ht, List.filterMap_append, List.filterMap_cons, inHand_receiving,
        inHand_holding] at h11 ⊢
      exact (h11.append_right [v]).trans (perm_insert _ _ _ _)
    · simpa [ht] using h7
  | drained pre post ht hs hc =>
    obtain ⟨k1, k2⟩ := fin_stop_other s pre post .receiving .returning ht (by simp) (by simp)
      h6 h10
    refine ⟨?_, h2, h3, h4, h5, h9, k1, k2, ?_, ?_, h8⟩
    · simpa [ht] using h1
    · simpa [ht] using h11
    · simpa [ht] using h7
  | enter pre post v ht =>
    obtain ⟨k1, k2⟩ := fin_stop_other s pre post (.holding v) (.calling v) ht (by simp)
      (by simp) h6 h10
    refine ⟨?_, h2, h3, h4, h5, h9, k1, k2, ?_, ?_, h8⟩
    · simpa [ht] using h1
    · simp only [ht, List.filterMap_append, List.filterMap_cons, inHand_calling,
        inHand_holding] at h11 ⊢
      exact h11.trans (perm_move _ _ _ _)
    · simp only [ht, List.filterMap_append, List.filterMap_cons, item_calling,
        item_holding] at h7 ⊢
      exact (h7.append_right [v]).trans (perm_insert _ _ _ _)
  | ret pre post v ht =>
    have hne : (if (p.f v s.mem).2 = true then (Worker.receiving : Worker α)
        else Worker.returning) ≠ .finished := by
      split <;> simp
    obtain ⟨k1, k2⟩ := fin_stop_other s pre post (.calling v) _ ht (by simp) hne h6 h10
    have hitem : Worker.item (if (p.f v s.mem).2 = true then (Worker.receiving : Worker α)
        else Worker.returning) = none := by
      split <;> rfl
    have hhand : Worker.inHand (if (p.f v s.mem).2 = true then (Worker.receiving : Worker α)
        else Worker.returning) = none := by
      split <;> rfl
    refine ⟨?_, h2, h3, h4, h5, h9, k1, k2, ?_, ?_, ?_⟩
    · simpa [ht] using h1
    · simpa [ht, hhand] using h11
    · simp only [ht, List.filterMap_append, List.filterMap_cons, item_calling, hitem] at h7 ⊢
      exact h7.trans (perm_move _ _ _ _)
    · simp only [applyAll_append, ← h8]
      rfl
  | stopCall pre post ht =>
    refine ⟨?_, h2, h3, h4, ?_, h9, ?_, ?_, ?_, ?_, h8⟩
    · simpa [ht] using h1
    · rcases h5 with h | ⟨h, hb, _⟩
      · exact Or.inl h
      · exact Or.inr ⟨h, hb, rfl⟩
    · intro _ _ _
      rfl
    · intro _
      exact ⟨.finished, by simp, rfl⟩
    · simpa [ht] using h11
    · simpa [ht] using h7

/-- Every state a schedule reaches from the start satisfies the invariants. -/
theorem inv_exec (p : Setup σ α) (mem0 : σ) (acts : List Action) (s : State σ α)
    (h : p.exec (p.start mem0) acts = some s) : Inv p mem0 s :=
  exec_induction p (Inv p mem0) (fun s a s' hi hs => inv_step p mem0 s s' a hi hs)
    (p.start mem0) s acts (inv_start p mem0) h

/-! ## Every run is finite and does not deadlock -/

theorem step_progress (p : Setup σ α) (s s' : State σ α) (a : Action) (h : Step p s a s') :
    s.progress + 1 ≤ s'.progress := by
  cases h with
  | pullItem v hb hv =>
    simp only [State.progress, hb, Bridge.rank]
    omega
  | pullEnd hb hv =>
    simp only [State.progress, hb, Bridge.rank]
    omega
  | send v hb hlt =>
    simp only [State.progress, hb, Bridge.rank, List.length_append, List.length_singleton]
    omega
  | stop v hb hc =>
    simp only [State.progress, hb, Bridge.rank]
    omega
  | recv pre post v rest ht hs =>
    simp only [State.progress, ht, hs, List.length_append, List.length_singleton,
      List.length_cons, List.map_append, List.map_cons, List.sum_append, List.sum_cons,
      Worker.rank]
    omega
  | drained pre post ht hs hc =>
    simp only [State.progress, ht, List.map_append, List.map_cons, List.sum_append,
      List.sum_cons, Worker.rank]
    omega
  | enter pre post v ht =>
    simp only [State.progress, ht, List.length_append, List.length_singleton,
      List.map_append, List.map_cons, List.sum_append, List.sum_cons, Worker.rank]
    omega
  | ret pre post v ht =>
    simp only [State.progress, ht, List.length_append, List.length_singleton,
      List.map_append, List.map_cons, List.sum_append, List.sum_cons, Worker.rank]
    omega
  | stopCall pre post ht =>
    simp only [State.progress, ht, List.map_append, List.map_cons, List.sum_append,
      List.sum_cons, Worker.rank]
    omega

theorem exec_progress (p : Setup σ α) (s s' : State σ α) (acts : List Action)
    (h : p.exec s acts = some s') : s.progress + acts.length ≤ s'.progress := by
  induction acts generalizing s with
  | nil =>
    simp [Setup.exec] at h
    subst h
    simp
  | cons a rest ih =>
    simp only [Setup.exec] at h
    cases hs : p.step s a with
    | none => simp [hs] at h
    | some s1 =>
      simp [hs] at h
      have h1 := step_progress p s s1 a (step_sound p s s1 a hs)
      have h2 := ih s1 h
      simp only [List.length_cons]
      omega

theorem rank_sum_le (ws : List (Worker α)) : (ws.map Worker.rank).sum ≤ 2 * ws.length := by
  induction ws with
  | nil => simp
  | cons w ws ih =>
    simp only [List.map_cons, List.sum_cons, List.length_cons]
    cases w <;> simp only [Worker.rank] <;> omega

theorem progress_le (p : Setup σ α) (mem0 : σ) (s : State σ α) (hi : Inv p mem0 s) :
    s.progress ≤ 5 * s.pulled + 2 * p.maxGoroutines + 1 := by
  have h1 := rank_sum_le s.tasks
  rw [hi.tasks_len] at h1
  have h2 := hi.inflight.length_eq
  have h5 := hi.in_hand.length_eq
  have h3 : s.handled.length ≤ s.pulled := by
    rcases hi.pulled_eq with h | ⟨h, _⟩ <;> omega
  have h4 : s.bridge.rank ≤ 1 := by
    cases s.bridge <;> simp [Bridge.rank]
  simp only [State.handled, List.length_append] at h2 h3 h5
  simp only [State.progress]
  omega

/-- A schedule from the start is no longer than five steps per pulled item, two per task and
one for the end of the bridging goroutine. -/
theorem schedule_length_le (p : Setup σ α) (mem0 : σ) (acts : List Action) (s : State σ α)
    (h : p.exec (p.start mem0) acts = some s) :
    acts.length ≤ 5 * s.pulled + 2 * p.maxGoroutines + 1 := by
  have h1 := exec_progress p _ _ acts h
  have h2 := progress_le p mem0 s (inv_exec p mem0 acts s h)
  omega

/-- No more items are pulled than the source has. -/
theorem pulled_le_of_end (p : Setup σ α) (mem0 : σ) (s : State σ α) (hi : Inv p mem0 s)
    (n : Nat) (hn : p.input n = none) : s.pulled ≤ n := by
  by_contra hlt
  have := hi.pulled_some n (by omega)
  rw [hn] at this
  cases this

/-- As long as some task has not ended, some goroutine can move. -/
theorem can_step (p : Setup σ α) (mem0 : σ) (s : State σ α) (hi : Inv p mem0 s)
    (hm : 1 ≤ p.maxGoroutines) (hr : s.returned = false) :
    ∃ a s', p.step s a = some s' := by
  have hex : ∃ w ∈ s.tasks, w.isFinished = false := by
    simpa [State.returned] using hr
  obtain ⟨w, hw, hwf⟩ := hex
  obtain ⟨pre, post, ht⟩ := List.append_of_mem hw
  have key : ∃ a s', Step p s a s' := by
    cases w with
    | finished => simp [Worker.isFinished] at hwf
    | holding v => exact ⟨_, _, Step.enter s pre post v ht⟩
    | calling v => exact ⟨_, _, Step.ret s pre post v ht⟩
    | returning => exact ⟨_, _, Step.stopCall s pre post ht⟩
    | receiving =>
      cases hs : s.sendCh with
      | cons v rest => exact ⟨_, _, Step.recv s pre post v rest ht hs⟩
      | nil =>
        cases hc : s.sendChClosed with
        | true => exact ⟨_, _, Step.drained s pre post ht hs hc⟩
        | false =>
          cases hb : s.bridge with
          | finished =>
            have := hi.closed_iff.mpr hb
            rw [hc] at this
            cases this
          | ranging =>
            cases hv : p.input s.pulled with
            | none => exact ⟨_, _, Step.pullEnd s hb hv⟩
            | some v => exact ⟨_, _, Step.pullItem s v hb hv⟩
          | selecting v =>
            refine ⟨_, _, Step.send s v hb ?_⟩
            rw [hs]
            simpa using hm
  obtain ⟨a, s', hs'⟩ := key
  exact ⟨a, s', step_complete p s s' a hs'⟩

/-! ## Runs of a callback that always continues -/

theorem invContinue_start (p : Setup σ α) (mem0 : σ) : InvContinue p (p.start mem0) := by
  constructor
  · intro h
    rcases h with h | ⟨w, hw, h⟩
    · simp [Setup.start] at h
    · simp only [Setup.start, List.mem_replicate] at hw
      rw [hw.2] at h
      rcases h with h | h <;> cases h
  · intro h
    simp [Setup.start] at h

/-- A task that has left its loop is still there after another task, which has not left its
loop, has moved and not left its loop. -/
theorem left_other (pre post : List (Worker α)) (w w' : Worker α)
    (hw' : w' ≠ .returning ∧ w' ≠ .finished)
    (h : ∃ x ∈ pre ++ w' :: post, x = Worker.returning ∨ x = Worker.finished) :
    ∃ x ∈ pre ++ w :: post, x = Worker.returning ∨ x = Worker.finished := by
  obtain ⟨x, hx, hxf⟩ := h
  refine ⟨x, mem_split_other pre post w' w x hx ?_, hxf⟩
  rcases hxf with h1 | h1
  · rw [h1]
    exact Ne.symm hw'.1
  · rw [h1]
    exact Ne.symm hw'.2

theorem invContinue_step (p : Setup σ α) (mem0 : σ) (hf : ∀ v st, (p.f v st).2 = true)
    (s s' : State σ α) (a : Action) (hi : Inv p mem0 s) (hc : InvContinue p s)
    (h : Step p s a s') : InvContinue p s' := by
  obtain ⟨c1, c2⟩ := hc
  have hcl := hi.closed_iff
  have hpe := hi.pulled_eq
  cases h with
  | pullItem v hb hv =>
    have hopen : ¬ s.sendChClosed = true := by
      rw [hcl, hb]
      simp
    constructor
    · intro h
      exact absurd (c1 h).1 hopen
    · intro h
      exact absurd h hopen
  | pullEnd hb hv =>
    have hopen : ¬ s.sendChClosed = true := by
      rw [hcl, hb]
      simp
    constructor
    · intro h
      exact absurd (c1 h).1 hopen
    · intro _
      refine ⟨hv, ?_⟩
      rcases hpe with h | ⟨_, h, _⟩
      · simpa [State.handled, hb, Bridge.held] using h
      · rw [hb] at h
        cases h
  | send v hb hlt =>
    have hopen : ¬ s.sendChClosed = true := by
      rw [hcl, hb]
      simp
    constructor
    · intro h
      exact absurd (c1 h).1 hopen
    · intro h
      exact absurd h hopen
  | stop v hb hsc =>
    have hopen : ¬ s.sendChClosed = true := by
      rw [hcl, hb]
      simp
    exact absurd (c1 (Or.inl hsc)).1 hopen
  | recv pre post v rest ht hs =>
    have hno : ¬ (s.stopChClosed = true ∨ ∃ w ∈ s.tasks, w = .returning ∨ w = .finished) := by
      intro h
      have := (c1 h).2
      rw [hs] at this
      cases this
    constructor
    · intro h
      exfalso
      apply hno
      rcases h with h | h
      · exact Or.inl h
      · right
        rw [ht]
        exact left_other pre post _ _ (by simp) h
    · intro h
      have := c2 h
      simpa [State.handled, hs] using this
  | drained pre post ht hs hcd =>
    constructor
    · intro _
      exact ⟨hcd, hs⟩
    · intro h
      exact c2 h
  | enter pre post v ht =>
    constructor
    · intro h
      apply c1
      rcases h with h | h
      · exact Or.inl h
      · right
        rw [ht]
        exact left_other pre post _ _ (by simp) h
    · intro h
      exact c2 h
  | ret pre post v ht =>
    constructor
    · intro h
      apply c1
      rcases h with h | h
      · exact Or.inl h
      · right
        rw [ht]
        refine left_other pre post _ _ ?_ h
        rw [hf]
        simp
    · intro h
      exact c2 h
  | stopCall pre post ht =>
    have hprem : s.stopChClosed = true ∨ ∃ w ∈ s.tasks, w = .returning ∨ w = .finished :=
      Or.inr ⟨.returning, by simp [ht], Or.inl rfl⟩
    constructor
    · intro _
      exact c1 hprem
    · intro h
      exact c2 h

theorem invContinue_exec (p : Setup σ α) (mem0 : σ) (hf : ∀ v st, (p.f v st).2 = true)
    (acts : List Action) (s : State σ α) (h : p.exec (p.start mem0) acts = some s) :
    Inv p mem0 s ∧ InvContinue p s :=
  exec_induction p (fun s => Inv p mem0 s ∧ InvContinue p s)
    (fun s a s' hi hs =>
      ⟨inv_step p mem0 s s' a hi.1 hs, invContinue_step p mem0 hf s s' a hi.1 hi.2 hs⟩)
    (p.start mem0) s acts ⟨inv_start p mem0, invContinue_start p mem0⟩ h

/-! ## Finite sources -/

theorem take_of_items (l xs : List α)
    (h : xs.map some = (List.range xs.length).map (Source.ofList l)) :
    xs = l.take xs.length := by
  apply List.ext_getElem?
  intro i
  have hi := congrArg (fun ys => ys[i]?) h
  simp only [List.getElem?_map] at hi
  by_cases hlt : i < xs.length
  · rw [List.getElem?_take_of_lt hlt]
    rw [List.getElem?_range hlt, List.getElem?_eq_getElem hlt] at hi
    simp only [Option.map_some', Source.ofList] at hi
    rw [List.getElem?_eq_getElem hlt]
    exact Option.some.inj hi
  · rw [List.getElem?_take_eq_none (by omega), List.getElem?_eq_none (by omega)]

theorem handled_of_list (p : Setup σ α) (mem0 : σ) (l : List α) (hin : p.input = Source.ofList l)
    (s : State σ α) (hi : Inv p mem0 s) : s.handled = l.take s.handled.length := by
  have h := hi.items
  rw [hin] at h
  exact take_of_items l _ h

theorem pulled_le_length (p : Setup σ α) (mem0 : σ) (l : List α)
    (hin : p.input = Source.ofList l) (s : State σ α) (hi : Inv p mem0 s) :
    s.pulled ≤ l.length := by
  apply pulled_le_of_end p mem0 s hi
  rw [hin]
  simp [Source.ofList]

/-- The setup ForEach makes for a positive worker count. -/
theorem forEach_pos (d : Int) (m : Nat) (hm : 1 ≤ m) (input : Source (T1 × T2))
    (f : T1 → T2 → σ → σ × Bool) :
    SeqIterator2.ForEach d { MaxGoroutines := (m : Int) } input f
      = some { maxGoroutines := m, input := input, f := fun v => f v.1 v.2 } := by
  have h1 : ((m : Int) == 0) = false := by
    simp
    omega
  have h2 : ¬ ((m : Int) < 0) := by omega
  simp [SeqIterator2.ForEach, h1, h2]

theorem all_finished (s : State σ α) (hr : s.returned = true) :
    ∀ w ∈ s.tasks, w = Worker.finished := by
  intro w hw
  have := (List.all_eq_true.mp hr) w hw
  cases w <;> simp [Worker.isFinished] at this ⊢

theorem filterMap_all_finished (ws : List (Worker α)) (g : Worker α → Option α)
    (hg : g .finished = none) (hall : ∀ w ∈ ws, w = Worker.finished) :
    ws.filterMap g = [] := by
  rw [List.filterMap_eq_nil_iff]
  intro w hw
  rw [hall w hw]
  exact hg

/-- With a callback that never stops and a finite source, when all tasks have ended the items
of the source have been received in order, the callback has been entered on each of them once
and has returned from each. -/
theorem complete_of_returned (p : Setup σ α) (mem0 : σ) (l : List α)
    (hin : p.input = Source.ofList l) (hm : 1 ≤ p.maxGoroutines)
    (hf : ∀ v st, (p.f v st).2 = true) (acts : List Action) (s : State σ α)
    (h : p.exec (p.start mem0) acts = some s) (hr : s.returned = true) :
    s.taken = l ∧ s.calls.Perm l ∧ s.rets.Perm l ∧ s.bridge = .finished ∧ s.sendCh = [] := by
  obtain ⟨hi, hc⟩ := invContinue_exec p mem0 hf acts s h
  have hall := all_finished s hr
  have hne : s.tasks ≠ [] := by
    intro h0
    have := hi.tasks_len
    rw [h0] at this
    simp at this
    omega
  obtain ⟨w, hw⟩ := List.exists_mem_of_ne_nil _ hne
  obtain ⟨hcl, hbuf⟩ := hc.left_loop (Or.inr ⟨w, hw, Or.inr (hall w hw)⟩)
  obtain ⟨hend, hpl⟩ := hc.ended hcl
  have hb := hi.closed_iff.mp hcl
  have hh : s.handled = s.taken := by simp [State.handled, hbuf, hb, Bridge.held]
  have hlen : l.length ≤ s.taken.length := by
    rw [hin, hpl, hh] at hend
    simpa [Source.ofList] using hend
  have htaken : s.taken = l := by
    have := handled_of_list p mem0 l hin s hi
    rw [hh, List.take_of_length_le hlen] at this
    exact this
  have hperm1 := hi.in_hand
  rw [filterMap_all_finished _ _ rfl hall, List.append_nil, htaken] at hperm1
  have hperm2 := hi.inflight
  rw [filterMap_all_finished _ _ rfl hall, List.append_nil] at hperm2
  exact ⟨htaken, hperm1.symm, hperm2.symm.trans hperm1.symm, hb, hbuf⟩

/-! ## One worker -/

theorem allContinue_snoc (f : α → σ → σ × Bool) (r : List α) (v : α) (st : σ) :
    allContinue f (r ++ [v]) st = (allContinue f r st && (f v (applyAll f r st)).2) := by
  induction r generalizing st with
  | nil => simp [allContinue, applyAll]
  | cons x xs ih =>
    have h := ih (f x st).1
    simp only [applyAll] at h
    show ((f x st).2 && allContinue f (xs ++ [v]) (f x st).1) = _
    rw [h]
    simp only [allContinue, applyAll, List.foldl_cons, Bool.and_assoc]

theorem split_singleton {β : Type} (pre post : List β) (w w0 : β)
    (h : [w0] = pre ++ w :: post) : pre = [] ∧ post = [] ∧ w0 = w := by
  cases pre with
  | nil =>
    simp at h
    exact ⟨rfl, h.2, h.1⟩
  | cons x xs => simp at h

theorem invOne_start (p : Setup σ α) (mem0 : σ) (hm : p.maxGoroutines = 1) :
    InvOne p mem0 (p.start mem0) := by
  refine ⟨⟨.receiving, ?_, ?_⟩, ?_, ?_⟩
  · simp [Setup.start, hm]
  · simp [OneTask, Setup.start, allContinue]
  · intro h
    simp [Setup.start] at h
  · intro h
    simp [Setup.start] at h

/-- What holds of the single task is kept by a step of the bridging goroutine, which does not
touch the records and can only be taken while `sendCh` is open. -/
theorem oneTask_bridge (p : Setup σ α) (mem0 : σ) (s s' : State σ α) (w : Worker α)
    (hopen : ¬ s.sendChClosed = true) (ht : s'.taken = s.taken) (hc : s'.calls = s.calls)
    (hr : s'.rets = s.rets) (hok : OneTask p mem0 s w) : OneTask p mem0 s' w := by
  have hleft : (s.taken = s.calls ∧ s.calls = s.rets ∧ LeftLoop p mem0 s) →
      (s'.taken = s'.calls ∧ s'.calls = s'.rets ∧ LeftLoop p mem0 s') := by
    intro h
    refine ⟨by rw [ht, hc]; exact h.1, by rw [hc, hr]; exact h.2.1, ?_⟩
    rcases h.2.2 with hA | hB
    · left
      rw [hr]
      exact hA
    · exact absurd hB.2.2.1 hopen
  cases w with
  | receiving =>
    simp only [OneTask] at hok ⊢
    rw [ht, hc, hr]
    exact hok
  | holding v =>
    simp only [OneTask] at hok ⊢
    rw [ht, hc, hr]
    exact hok
  | calling v =>
    simp only [OneTask] at hok ⊢
    rw [ht, hc, hr]
    exact hok
  | returning => exact hleft hok
  | finished => exact hleft hok

theorem invOne_step (p : Setup σ α) (mem0 : σ) (s s' : State σ α) (a : Action)
    (hi : Inv p mem0 s) (ho : InvOne p mem0 s) (h : Step p s a s') : InvOne p mem0 s' := by
  obtain ⟨⟨w0, hw0, hok⟩, o2, o3⟩ := ho
  have hcl := hi.closed_iff
  have hpe := hi.pulled_eq
  have hmem := hi.memfold
  cases h with
  | pullItem v hb hv =>
    have hopen : ¬ s.sendChClosed = true := by
      rw [hcl, hb]
      simp
    exact ⟨⟨w0, hw0, oneTask_bridge p mem0 s _ w0 hopen rfl rfl rfl hok⟩, o2,
      fun h => absurd h hopen⟩
  | pullEnd hb hv =>
    have hopen : ¬ s.sendChClosed = true := by
      rw [hcl, hb]
      simp
    have hp : s.pulled = s.handled.length := by
      rcases hpe with h | ⟨_, h, _⟩
      · exact h
      · rw [hb] at h
        cases h
    refine ⟨⟨w0, hw0, oneTask_bridge p mem0 s _ w0 hopen rfl rfl rfl hok⟩, o2,
      fun _ => Or.inl ⟨hv, ?_⟩⟩
    simpa [State.handled, hb, Bridge.held] using hp
  | send v hb hlt =>
    have hopen : ¬ s.sendChClosed = true := by
      rw [hcl, hb]
      simp
    exact ⟨⟨w0, hw0, oneTask_bridge p mem0 s _ w0 hopen rfl rfl rfl hok⟩, o2,
      fun h => absurd h hopen⟩
  | stop v hb hsc =>
    have hopen : ¬ s.sendChClosed = true := by
      rw [hcl, hb]
      simp
    exact ⟨⟨w0, hw0, oneTask_bridge p mem0 s _ w0 hopen rfl rfl rfl hok⟩, o2,
      fun _ => Or.inr hsc⟩
  | recv pre post v rest ht hs =>
    rw [hw0] at ht
    obtain ⟨hpre, hpost, hw⟩ := split_singleton pre post _ _ ht
    subst hpre hpost hw
    have hnostop : ¬ s.stopChClosed = true := by
      intro h
      have := o2 h
      rw [hw0] at this
      simp at this
    refine ⟨⟨.holding v, by simp, ?_⟩, fun h => absurd h hnostop, ?_⟩
    · simp only [OneTask] at hok ⊢
      exact ⟨by rw [hok.1], hok.2⟩
    · intro h
      rcases o3 h with h' | h'
      · left
        simpa [State.handled, hs] using h'
      · exact absurd h' hnostop
  | drained pre post ht hs hcd =>
    rw [hw0] at ht
    obtain ⟨hpre, hpost, hw⟩ := split_singleton pre post _ _ ht
    subst hpre hpost hw
    have hnostop : ¬ s.stopChClosed = true := by
      intro h
      have := o2 h
      rw [hw0] at this
      simp at this
    refine ⟨⟨.returning, by simp, ?_⟩, fun h => absurd h hnostop, o3⟩
    simp only [OneTask] at hok ⊢
    refine ⟨hok.1, hok.2.1, Or.inr ⟨hok.2.2, hs, hcd, ?_⟩⟩
    rcases o3 hcd with h' | h'
    · exact h'
    · exact absurd h' hnostop
  | enter pre post v ht =>
    rw [hw0] at ht
    obtain ⟨hpre, hpost, hw⟩ := split_singleton pre post _ _ ht
    subst hpre hpost hw
    have hnostop : ¬ s.stopChClosed = true := by
      intro h
      have := o2 h
      rw [hw0] at this
      simp at this
    refine ⟨⟨.calling v, by simp, ?_⟩, fun h => absurd h hnostop, o3⟩
    simp only [OneTask] at hok ⊢
    exact ⟨hok.1, by rw [hok.2.1], hok.2.2⟩
  | ret pre post v ht =>
    rw [hw0] at ht
    obtain ⟨hpre, hpost, hw⟩ := split_singleton pre post _ _ ht
    subst hpre hpost hw
    have hnostop : ¬ s.stopChClosed = true := by
      intro h
      have := o2 h
      rw [hw0] at this
      simp at this
    simp only [OneTask] at hok
    refine ⟨⟨_, rfl, ?_⟩, fun h => absurd h hnostop, o3⟩
    cases hfv : (p.f v s.mem).2 with
    | true =>
      simp only [List.nil_append, if_true, OneTask]
      refine ⟨hok.1, hok.2.1, ?_⟩
      rw [allContinue_snoc, hok.2.2, ← hmem, hfv]
      rfl
    | false =>
      simp only [List.nil_append, Bool.false_eq_true, if_false, OneTask]
      refine ⟨hok.1, hok.2.1, Or.inl ⟨s.rets, v, rfl, hok.2.2, ?_⟩⟩
      rw [← hmem, hfv]
  | stopCall pre post ht =>
    rw [hw0] at ht
    obtain ⟨hpre, hpost, hw⟩ := split_singleton pre post _ _ ht
    subst hpre hpost hw
    refine ⟨⟨.finished, by simp, ?_⟩, fun _ => by simp, fun _ => Or.inr rfl⟩
    simp only [OneTask] at hok ⊢
    exact hok

theorem invOne_exec (p : Setup σ α) (mem0 : σ) (hm : p.maxGoroutines = 1)
    (acts : List Action) (s : State σ α) (h : p.exec (p.start mem0) acts = some s) :
    Inv p mem0 s ∧ InvOne p mem0 s :=
  exec_induction p (fun s => Inv p mem0 s ∧ InvOne p mem0 s)
    (fun s a s' hi hs =>
      ⟨inv_step p mem0 s s' a hi.1 hs, invOne_step p mem0 s s' a hi.1 hi.2 hs⟩)
    (p.start mem0) s acts ⟨inv_start p mem0, invOne_start p mem0 hm⟩ h

theorem sequentialLoop_append (f : α → σ → σ × Bool) (c rest : List α) (st : σ)
    (h : allContinue f c st = true) :
    sequentialLoop f (c ++ rest) st =
      ((sequentialLoop f rest (applyAll f c st)).1,
        c ++ (sequentialLoop f rest (applyAll f c st)).2) := by
  induction c generalizing st with
  | nil => simp [applyAll]
  | cons x xs ih =>
    simp only [allContinue, Bool.and_eq_true] at h
    have e : sequentialLoop f (x :: (xs ++ rest)) st =
        ((sequentialLoop f (xs ++ rest) (f x st).1).1,
          x :: (sequentialLoop f (xs ++ rest) (f x st).1).2) := by
      simp only [sequentialLoop, h.1, if_true]
    rw [List.cons_append, e, ih _ h.2]
    simp [applyAll]

theorem sequentialLoop_stop (f : α → σ → σ × Bool) (r rest : List α) (v : α) (st : σ)
    (h : allContinue f r st = true) (hv : (f v (applyAll f r st)).2 = false) :
    sequentialLoop f (r ++ v :: rest) st = (applyAll f (r ++ [v]) st, r ++ [v]) := by
  rw [sequentialLoop_append f r (v :: rest) st h]
  simp only [sequentialLoop, hv, Bool.false_eq_true, if_false, applyAll_append]
  simp [applyAll]

theorem sequentialLoop_all (f : α → σ → σ × Bool) (l : List α) (st : σ)
    (h : allContinue f l st = true) : sequentialLoop f l st = (applyAll f l st, l) := by
  have := sequentialLoop_append f l [] st h
  simpa [sequentialLoop] using this

/-- The first item the sequential loop is called on is the first item of the list. -/
theorem sequentialLoop_head (f : α → σ → σ × Bool) (v : α) (rest : List α) (st : σ) :
    ∃ t, (sequentialLoop f (v :: rest) st).2 = v :: t := by
  simp only [sequentialLoop]
  split
  · exact ⟨_, rfl⟩
  · exact ⟨[], rfl⟩

theorem sequentialLoop_single (f : α → σ → σ × Bool) (v : α) (st : σ) :
    sequentialLoop f [v] st = ((f v st).1, [v]) := by
  simp only [sequentialLoop]
  split <;> rfl

/-- With one worker, the items the callback has been entered on are the first of the items the
task has received. -/
theorem one_calls_taken (p : Setup σ α) (mem0 : σ) (s : State σ α) (ho : InvOne p mem0 s) :
    ∃ t, s.taken = s.calls ++ t := by
  obtain ⟨⟨w0, hw0, hok⟩, o2, o3⟩ := ho
  cases w0 with
  | receiving => exact ⟨[], by simp [hok.1]⟩
  | holding v => exact ⟨[v], hok.1⟩
  | calling v => exact ⟨[], by simp [hok.1]⟩
  | returning => exact ⟨[], by simp [hok.1]⟩
  | finished => exact ⟨[], by simp [hok.1]⟩

/-- With one worker, the callback is entered on an initial part of what the sequential loop
is called on. -/
theorem one_calls_initial (p : Setup σ α) (mem0 : σ) (l : List α)
    (hin : p.input = Source.ofList l) (s : State σ α)
    (hi : Inv p mem0 s) (ho : InvOne p mem0 s) :
    ∃ t, (sequentialLoop p.f l mem0).2 = s.calls ++ t := by
  obtain ⟨⟨w0, hw0, hok⟩, o2, o3⟩ := ho
  have hh := handled_of_list p mem0 l hin s hi
  have hl : l = s.taken ++ (s.sendCh ++ s.bridge.held ++ l.drop s.handled.length) := by
    conv_lhs => rw [← List.take_append_drop s.handled.length l, ← hh]
    simp [State.handled]
  have hcont : ∀ (rest : List α), l = s.rets ++ rest → allContinue p.f s.rets mem0 = true →
      s.calls = s.rets → ∃ t, (sequentialLoop p.f l mem0).2 = s.calls ++ t := by
    intro rest hrest ha hc
    rw [hrest, sequentialLoop_append p.f _ _ mem0 ha, hc]
    exact ⟨_, rfl⟩
  have hleft : (s.taken = s.calls ∧ s.calls = s.rets ∧ LeftLoop p mem0 s) →
      ∃ t, (sequentialLoop p.f l mem0).2 = s.calls ++ t := by
    intro h
    rcases h.2.2 with ⟨r, v, hr, ha, hv⟩ | hB
    · rw [h.1, h.2.1, hr] at hl
      rw [hl]
      simp only [List.append_assoc, List.singleton_append]
      rw [sequentialLoop_stop p.f r _ v mem0 ha hv, h.2.1, hr]
      exact ⟨[], by simp⟩
    · exact hcont _ (by rw [← h.2.1, ← h.1]; exact hl) hB.1 h.2.1
  cases w0 with
  | receiving =>
    simp only [OneTask] at hok
    exact hcont _ (by rw [← hok.2.1, ← hok.1]; exact hl) hok.2.2 hok.2.1
  | holding v =>
    simp only [OneTask] at hok
    refine hcont ([v] ++ (s.sendCh ++ s.bridge.held ++ l.drop s.handled.length)) ?_
      hok.2.2 hok.2.1
    rw [← hok.2.1, ← List.append_assoc, ← hok.1]
    exact hl
  | calling v =>
    simp only [OneTask] at hok
    rw [hok.1, hok.2.1] at hl
    rw [hok.2.1, hl]
    simp only [List.append_assoc, List.singleton_append]
    rw [sequentialLoop_append p.f s.rets _ mem0 hok.2.2]
    obtain ⟨t, ht⟩ := sequentialLoop_head p.f v
      (s.sendCh ++ (s.bridge.held ++ List.drop s.handled.length l)) (applyAll p.f s.rets mem0)
    rw [ht]
    exact ⟨t, rfl⟩
  | returning => exact hleft hok
  | finished => exact hleft hok

/-- With one worker, when the task has ended the callback has been entered on exactly the items
the sequential loop is called on, has returned from each of them in that order, and has left
its state as the sequential loop leaves it. -/
theorem one_returned (p : Setup σ α) (mem0 : σ) (l : List α)
    (hin : p.input = Source.ofList l) (s : State σ α)
    (hi : Inv p mem0 s) (ho : InvOne p mem0 s) (hr : s.returned = true) :
    s.calls = (sequentialLoop p.f l mem0).2 ∧ s.rets = s.calls ∧
      s.mem = (sequentialLoop p.f l mem0).1 := by
  obtain ⟨⟨w0, hw0, hok⟩, o2, o3⟩ := ho
  have hfin : w0 = .finished := by
    rw [State.returned, hw0] at hr
    cases w0 <;> simp [Worker.isFinished] at hr ⊢
  subst hfin
  simp only [OneTask] at hok
  obtain ⟨hk1, hk2, hk3⟩ := hok
  have hh := handled_of_list p mem0 l hin s hi
  have hl : l = s.taken ++ (s.sendCh ++ s.bridge.held ++ l.drop s.handled.length) := by
    conv_lhs => rw [← List.take_append_drop s.handled.length l, ← hh]
    simp [State.handled]
  have hmem := hi.memfold
  rcases hk3 with ⟨r, v, hr', ha, hv⟩ | ⟨ha, hbuf, hcl, hend, hpl⟩
  · have hl2 := hl
    rw [hk1, hk2, hr'] at hl2
    have hseq : sequentialLoop p.f l mem0 = (applyAll p.f (r ++ [v]) mem0, r ++ [v]) := by
      rw [hl2]
      simp only [List.append_assoc, List.singleton_append]
      exact sequentialLoop_stop p.f r _ v mem0 ha hv
    rw [hseq]
    exact ⟨by rw [hk2, hr'], hk2.symm, by rw [hmem, hr']⟩
  · have hb := hi.closed_iff.mp hcl
    have hhc : s.handled = s.calls := by simp [State.handled, hbuf, hb, Bridge.held, hk1]
    have hlen : l.length ≤ s.calls.length := by
      rw [hin, hpl, hhc] at hend
      simpa [Source.ofList] using hend
    have hcalls : s.calls = l := by
      rw [hhc, List.take_of_length_le hlen] at hh
      exact hh
    have hseq := sequentialLoop_all p.f l mem0 (by rw [← hcalls, hk2]; exact ha)
    rw [hseq]
    exact ⟨hcalls, hk2.symm, by rw [hmem, ← hcalls, hk2]⟩

/-- The items the tasks have received are the first items of the source, in the order of the
source and without a gap. -/
theorem taken_in_source_order (p : Setup σ α) (mem0 : σ) (s : State σ α) (hi : Inv p mem0 s) :
    s.taken.map some = (List.range s.taken.length).map p.input := by
  have h := congrArg (List.take s.taken.length) hi.items
  have hle : s.taken.length ≤ s.handled.length := by
    simp only [State.handled, List.length_append]
    omega
  rw [← List.map_take, ← List.map_take, List.take_range, min_eq_left hle] at h
  simp only [State.handled, List.append_assoc] at h
  rw [List.take_left] at h
  exact h

/-- With one worker, the items the callback has been entered on are the first items of the
source, in the order of the source and without a gap. -/
theorem calls_in_source_order (p : Setup σ α) (mem0 : σ) (s : State σ α) (hi : Inv p mem0 s)
    (ho : InvOne p mem0 s) :
    s.calls.map some = (List.range s.calls.length).map p.input := by
  obtain ⟨t, ht⟩ := one_calls_taken p mem0 s ho
  have h := congrArg (List.take s.calls.length) (taken_in_source_order p mem0 s hi)
  have hle : s.calls.length ≤ s.taken.length := by
    rw [ht, List.length_append]
    omega
  rw [← List.map_take, ← List.map_take, List.take_range, min_eq_left hle] at h
  rw [ht, List.take_left] at h
  exact h

/-- With one worker and any source, the sequential loop run over the items the callback has
been entered on is called on all of them: no call follows a call that answered "stop". -/
theorem one_calls_consistent (p : Setup σ α) (mem0 : σ) (s : State σ α)
    (ho : InvOne p mem0 s) : (sequentialLoop p.f s.calls mem0).2 = s.calls := by
  obtain ⟨⟨w0, hw0, hok⟩, o2, o3⟩ := ho
  have hleft : (s.taken = s.calls ∧ s.calls = s.rets ∧ LeftLoop p mem0 s) →
      (sequentialLoop p.f s.calls mem0).2 = s.calls := by
    intro h
    rcases h.2.2 with ⟨r, v, hr, ha, hv⟩ | hB
    · rw [h.2.1, hr, sequentialLoop_stop p.f r [] v mem0 ha hv]
    · rw [h.2.1, sequentialLoop_all p.f _ mem0 hB.1]
  cases w0 with
  | receiving =>
    simp only [OneTask] at hok
    rw [hok.2.1, sequentialLoop_all p.f _ mem0 hok.2.2]
  | holding v =>
    simp only [OneTask] at hok
    rw [hok.2.1, sequentialLoop_all p.f _ mem0 hok.2.2]
  | calling v =>
    simp only [OneTask] at hok
    rw [hok.2.1, sequentialLoop_append p.f _ _ mem0 hok.2.2, sequentialLoop_single]
  | returning => exact hleft hok
  | finished => exact hleft hok

/-- With one worker and any source, when the task has ended the callback has returned from
every call, its state and its calls are those of the sequential loop over the items it was
called on, and either the last call answered "stop" or the source has ended. -/
theorem one_returned_any (p : Setup σ α) (mem0 : σ) (s : State σ α)
    (hi : Inv p mem0 s) (ho : InvOne p mem0 s) (hr : s.returned = true) :
    s.rets = s.calls ∧ sequentialLoop p.f s.calls mem0 = (s.mem, s.calls) ∧
      (allContinue p.f s.calls mem0 = false ∨ p.input s.calls.length = none) := by
  obtain ⟨⟨w0, hw0, hok⟩, o2, o3⟩ := ho
  have hfin : w0 = .finished := by
    rw [State.returned, hw0] at hr
    cases w0 <;> simp [Worker.isFinished] at hr ⊢
  subst hfin
  simp only [OneTask] at hok
  obtain ⟨hk1, hk2, hk3⟩ := hok
  have hmem := hi.memfold
  refine ⟨hk2.symm, ?_⟩
  rcases hk3 with ⟨r, v, hr', ha, hv⟩ | ⟨ha, hbuf, hcl, hend, hpl⟩
  · constructor
    · rw [hk2, hr', sequentialLoop_stop p.f r [] v mem0 ha hv, hmem, hr']
    · left
      rw [hk2, hr', allContinue_snoc, ha, hv]
      rfl
  · constructor
    · rw [hk2, sequentialLoop_all p.f _ mem0 ha, hmem]
    · right
      have hb := hi.closed_iff.mp hcl
      have hh : s.handled = s.calls := by simp [State.handled, hbuf, hb, Bridge.held, hk1]
      rw [hpl, hh] at hend
      exact hend

/-! ## The slice adapters -/

theorem rangeLoop_continue (body : Nat → σ → σ × Bool) (i : Nat) (rest : List Nat) (st : σ)
    (h : (body i st).2 = true) :
    rangeLoop body (i :: rest) st = rangeLoop body rest (body i st).1 := by
  rw [rangeLoop]
  split
  · rename_i st' heq
    rw [heq]
  · rename_i st' heq
    rw [heq] at h
    cases h

theorem rangeLoop_stop (body : Nat → σ → σ × Bool) (i : Nat) (rest : List Nat) (st : σ)
    (h : (body i st).2 = false) :
    rangeLoop body (i :: rest) st = (body i st).1 := by
  rw [rangeLoop]
  split
  · rename_i st' heq
    rw [heq] at h
    cases h
  · rename_i st' heq
    rw [heq]

/-- The loop from index `j` on, run with a recording consumer: it stops right after the first
index `k` at which the consumer answers false, or after the last index. -/
theorem rangeLoop_recording (y : α → σ → σ × Bool) (g : Nat → α) (st0 : σ) (n k : Nat)
    (hk : k ≤ n)
    (hbefore : ∀ i, i < k → answerAt (fun i st => y (g i) st) st0 i = true)
    (hat : k < n → answerAt (fun i st => y (g i) st) st0 k = false)
    (d j : Nat) (hd : d = n - j) (hjn : j ≤ n) (hjk : j ≤ k) :
    rangeLoop (fun i st => recording y (g i) st) (List.range' j d)
        (stateBefore (fun i st => y (g i) st) st0 j, (List.range j).map g)
      = (stateBefore (fun i st => y (g i) st) st0 (min n (k + 1)),
          (List.range (min n (k + 1))).map g) := by
  induction d generalizing j with
  | zero =>
    have hj : j = n := by omega
    have hc : min n (k + 1) = n := by omega
    subst hj
    simp only [List.range'_zero, rangeLoop, hc]
  | succ d ih =>
    have hlt : j < n := by omega
    have hstep : recording y (g j) (stateBefore (fun i st => y (g i) st) st0 j,
          (List.range j).map g)
        = ((stateBefore (fun i st => y (g i) st) st0 (j + 1), (List.range (j + 1)).map g),
            answerAt (fun i st => y (g i) st) st0 j) := by
      simp [recording, stateBefore, answerAt, List.range_succ]
    rw [List.range'_succ]
    by_cases hjk' : j < k
    · have ha := hbefore j hjk'
      rw [rangeLoop_continue _ _ _ _ (by rw [hstep]; exact ha), hstep]
      exact ih (j + 1) (by omega) (by omega) (by omega)
    · have hjk2 : j = k := by omega
      subst hjk2
      have ha := hat hlt
      rw [rangeLoop_stop _ _ _ _ (by rw [hstep]; exact ha), hstep]
      have hc : min n (j + 1) = j + 1 := by omega
      rw [hc]

theorem rangeLoop_recording_range (y : α → σ → σ × Bool) (g : Nat → α) (st0 : σ) (n k : Nat)
    (hk : k ≤ n)
    (hbefore : ∀ i, i < k → answerAt (fun i st => y (g i) st) st0 i = true)
    (hat : k < n → answerAt (fun i st => y (g i) st) st0 k = false) :
    rangeLoop (fun i st => recording y (g i) st) (List.range n) (st0, [])
      = (stateBefore (fun i st => y (g i) st) st0 (min n (k + 1)),
          (List.range (min n (k + 1))).map g) := by
  have h := rangeLoop_recording y g st0 n k hk hbefore hat n 0 (by omega) (by omega) (by omega)
  have e : List.range n = List.range' 0 n := List.range_eq_range' n
  simp only [List.range_zero, List.map_nil, stateBefore] at h
  rw [e, h]

/-! ## Writing through the pointers of a slice -/

theorem rangeLoop_collect (g : Nat → α) (l : List Nat) (acc : List α) :
    rangeLoop (fun i (acc : List α) => (acc ++ [g i], true)) l acc = acc ++ l.map g := by
  induction l generalizing acc with
  | nil => simp [rangeLoop]
  | cons i rest ih =>
    rw [rangeLoop_continue _ _ _ _ rfl, ih]
    simp

/-- Slice yields the pointers to the slots of the slice, in index order. -/
theorem collect_slice (s : List T) :
    collect (Slice s) = (List.range s.length).map Ptr.mk := by
  simp only [collect, Slice]
  rw [rangeLoop_collect Ptr.mk]
  simp

theorem ofList_map {β : Type} (g : α → β) (l : List α) :
    (fun i => (Source.ofList l i).map g) = Source.ofList (l.map g) := by
  funext i
  simp [Source.ofList, List.getElem?_map]

theorem applyAll_setTo_length (c : T) (vs : List (Ptr × Unit)) (mem : List T) :
    (applyAll (fun (v : Ptr × Unit) => setTo c v.1) vs mem).length = mem.length := by
  induction vs generalizing mem with
  | nil => simp [applyAll]
  | cons v vs ih =>
    have h := ih (setTo c v.1 mem).1
    simp only [applyAll] at h
    simp only [applyAll, List.foldl_cons, h]
    simp [setTo, Ptr.store]

theorem applyAll_setTo_get (c : T) (vs : List (Ptr × Unit)) (mem : List T) (i : Nat)
    (hi : i < mem.length) (h : (∃ v ∈ vs, v.1.idx = i) ∨ mem[i]? = some c) :
    (applyAll (fun (v : Ptr × Unit) => setTo c v.1) vs mem)[i]? = some c := by
  induction vs generalizing mem with
  | nil =>
    rcases h with ⟨v, hv, _⟩ | h
    · simp at hv
    · simpa [applyAll] using h
  | cons v vs ih =>
    have hlen : i < (setTo c v.1 mem).1.length := by simpa [setTo, Ptr.store] using hi
    have hnext := ih (setTo c v.1 mem).1 hlen
    simp only [applyAll] at hnext
    simp only [applyAll, List.foldl_cons]
    apply hnext
    by_cases hvi : v.1.idx = i
    · right
      simp only [setTo, Ptr.store]
      rw [hvi]
      exact List.getElem?_set_self hi
    · rcases h with ⟨u, hu, hui⟩ | h
      · rcases List.mem_cons.mp hu with hu | hu
        · rw [hu] at hui
          exact absurd hui hvi
        · exact Or.inl ⟨u, hu, hui⟩
      · right
        simp only [setTo, Ptr.store]
        rw [List.getElem?_set_ne hvi]
        exact h

/-- Writing `c` through every pointer of a slice, in any order, leaves `c` in every slot. -/
theorem applyAll_setTo_all (c : T) (s : List T) (vs : List (Ptr × Unit))
    (hperm : vs.Perm (((List.range s.length).map Ptr.mk).map (fun v => (v, ())))) :
    applyAll (fun (v : Ptr × Unit) => setTo c v.1) vs s = List.replicate s.length c := by
  apply List.ext_getElem?
  intro i
  rw [List.getElem?_replicate]
  by_cases hi : i < s.length
  · rw [if_pos hi]
    apply applyAll_setTo_get c vs s i hi
    left
    refine ⟨(Ptr.mk i, ()), ?_, rfl⟩
    rw [hperm.mem_iff]
    simp only [List.mem_map, List.mem_range]
    exact ⟨Ptr.mk i, ⟨i, hi, rfl⟩, rfl⟩
  · rw [if_neg hi]
    apply List.getElem?_eq_none
    rw [applyAll_setTo_length]
    omega

/-! ## After ForEach has returned -/

theorem returned_no_worker (s : State σ α) (pre post : List (Worker α)) (w : Worker α)
    (hr : s.returned = true) (ht : s.tasks = pre ++ w :: post) : w = .finished := by
  rw [State.returned, ht] at hr
  have := (List.all_eq_true.mp hr) w (by simp)
  cases w <;> simp [Worker.isFinished] at this ⊢

/-- Once all tasks have ended only the bridging goroutine moves: the tasks, the records and the
state of the callback stay as they are, and the goroutine comes closer to its end. -/
theorem returned_step (p : Setup σ α) (s s' : State σ α) (a : Action) (hr : s.returned = true)
    (h : Step p s a s') :
    s'.returned = true ∧ s'.tasks = s.tasks ∧ s'.calls = s.calls ∧ s'.rets = s.rets ∧
      s'.mem = s.mem ∧ s'.taken = s.taken ∧ s'.bridgeSteps p + 1 ≤ s.bridgeSteps p ∧
      s'.pulled + s'.pullsLeft p ≤ s.pulled + s.pullsLeft p ∧
      s'.sendCh.length = s.sendCh.length + [a].count Action.send := by
  cases h with
  | pullItem v hb hv =>
    refine ⟨hr, rfl, rfl, rfl, rfl, rfl, ?_, ?_, by simp⟩
    · simp only [State.bridgeSteps, hb]
      omega
    · simp only [State.pullsLeft, hb]
      omega
  | pullEnd hb hv =>
    refine ⟨hr, rfl, rfl, rfl, rfl, rfl, ?_, ?_, by simp⟩
    · simp only [State.bridgeSteps, hb]
      omega
    · simp only [State.pullsLeft, hb]
      omega
  | send v hb hlt =>
    refine ⟨hr, rfl, rfl, rfl, rfl, rfl, ?_, ?_, by simp⟩
    · simp only [State.bridgeSteps, hb, List.length_append, List.length_singleton]
      omega
    · simp only [State.pullsLeft, hb, List.length_append, List.length_singleton]
      omega
  | stop v hb hc =>
    refine ⟨hr, rfl, rfl, rfl, rfl, rfl, ?_, ?_, by simp⟩
    · simp only [State.bridgeSteps, hb]
      omega
    · simp only [State.pullsLeft, hb]
      omega
  | recv pre post v rest ht hs => cases returned_no_worker s pre post _ hr ht
  | drained pre post ht hs hc => cases returned_no_worker s pre post _ hr ht
  | enter pre post v ht => cases returned_no_worker s pre post _ hr ht
  | ret pre post v ht => cases returned_no_worker s pre post _ hr ht
  | stopCall pre post ht => cases returned_no_worker s pre post _ hr ht

theorem count_send_cons (a : Action) (rest : List Action) :
    (a :: rest).count Action.send = [a].count Action.send + rest.count Action.send := by
  rw [← List.count_append]
  rfl

theorem returned_exec (p : Setup σ α) (s s' : State σ α) (more : List Action)
    (hr : s.returned = true) (h : p.exec s more = some s') :
    s'.returned = true ∧ s'.tasks = s.tasks ∧ s'.calls = s.calls ∧ s'.rets = s.rets ∧
      s'.mem = s.mem ∧ s'.taken = s.taken ∧ s'.bridgeSteps p + more.length ≤ s.bridgeSteps p ∧
      s'.pulled + s'.pullsLeft p ≤ s.pulled + s.pullsLeft p ∧
      s'.sendCh.length = s.sendCh.length + more.count Action.send := by
  induction more generalizing s with
  | nil =>
    simp [Setup.exec] at h
    subst h
    simp [hr]
  | cons a rest ih =>
    simp only [Setup.exec] at h
    cases hs : p.step s a with
    | none => simp [hs] at h
    | some s1 =>
      simp [hs] at h
      obtain ⟨h1, h2, h3, h4, h5, h6, h7, h8, h9⟩ :=
        returned_step p s s1 a hr (step_sound p s s1 a hs)
      obtain ⟨k1, k2, k3, k4, k5, k6, k7, k8, k9⟩ := ih s1 h1 h
      refine ⟨k1, k2.trans h2, k3.trans h3, k4.trans h4, k5.trans h5, k6.trans h6, ?_, ?_, ?_⟩
      · simp only [List.length_cons]
        omega
      · omega
      · rw [count_send_cons]
        omega

theorem bridgeSteps_le (p : Setup σ α) (s : State σ α) :
    s.bridgeSteps p ≤ 2 * (p.maxGoroutines - s.sendCh.length) + 2 := by
  simp only [State.bridgeSteps]
  cases s.bridge <;> simp

theorem pullsLeft_le (p : Setup σ α) (s : State σ α) :
    s.pullsLeft p ≤ (p.maxGoroutines - s.sendCh.length) + 1 := by
  simp only [State.pullsLeft]
  cases s.bridge <;> simp

/-- When the stop signal has been raised, the bridging goroutine can move as long as it has
not ended. -/
theorem bridge_can_step (p : Setup σ α) (s : State σ α) (hstop : s.stopChClosed = true)
    (hb : s.bridge ≠ .finished) :
    ∃ a s', p.step s a = some s' ∧ (a = .pull ∨ a = .stop) := by
  cases hbr : s.bridge with
  | finished => exact absurd hbr hb
  | ranging =>
    cases hv : p.input s.pulled with
    | none => exact ⟨.pull, _, step_complete p s _ _ (Step.pullEnd s hbr hv), Or.inl rfl⟩
    | some v => exact ⟨.pull, _, step_complete p s _ _ (Step.pullItem s v hbr hv), Or.inl rfl⟩
  | selecting v =>
    exact ⟨.stop, _, step_complete p s _ _ (Step.stop s v hbr hstop), Or.inr rfl⟩

/-- When the stop signal has been raised, the bridging goroutine ends within two steps of its
own, without pushing, if its `select` takes the stop case. -/
theorem bridge_can_end (p : Setup σ α) (s : State σ α) (hstop : s.stopChClosed = true) :
    ∃ more s', p.exec s more = some s' ∧ s'.bridge = .finished ∧ more.length ≤ 2 ∧
      s'.sendCh = s.sendCh := by
  cases hbr : s.bridge with
  | finished => exact ⟨[], s, rfl, hbr, by simp, rfl⟩
  | selecting v =>
    refine ⟨[.stop], { s with bridge := .finished, sendChClosed := true }, ?_, rfl, by simp,
      rfl⟩
    simp [Setup.exec, Setup.step, hbr, hstop]
  | ranging =>
    cases hv : p.input s.pulled with
    | none =>
      refine ⟨[.pull], { s with bridge := .finished, sendChClosed := true }, ?_, rfl, by simp,
        rfl⟩
      simp [Setup.exec, Setup.step, hbr, hv]
    | some v =>
      refine ⟨[.pull, .stop],
        { s with bridge := .finished, sendChClosed := true, pulled := s.pulled + 1 },
        ?_, rfl, by simp, rfl⟩
      simp [Setup.exec, Setup.step, hbr, hv, hstop]

/-! ## Calls and pushes -/

theorem holding_count (pre post : List (Worker α)) (w : Worker α) :
    ((pre ++ w :: post).filter Worker.isHolding).length
      = (pre.filter Worker.isHolding).length + (if w.isHolding then 1 else 0)
        + (post.filter Worker.isHolding).length := by
  simp only [List.filter_append, List.length_append, List.filter_cons]
  split
  · simp
    omega
  · simp

/-- The calls only grow, and a step adds nothing to the calls, the items in hand and the queue
taken together unless it is a send, which adds one item. -/
theorem step_calls (p : Setup σ α) (s s' : State σ α) (a : Action) (h : Step p s a s') :
    ∃ t, s'.calls = s.calls ++ t ∧
      t.length + s'.holding + s'.sendCh.length
        = s.holding + s.sendCh.length + [a].count Action.send := by
  cases h with
  | pullItem v hb hv => exact ⟨[], by simp, by simp [State.holding]⟩
  | pullEnd hb hv => exact ⟨[], by simp, by simp [State.holding]⟩
  | send v hb hlt => exact ⟨[], by simp, by simp [State.holding]; omega⟩
  | stop v hb hc => exact ⟨[], by simp, by simp [State.holding]⟩
  | recv pre post v rest ht hs =>
    refine ⟨[], by simp, ?_⟩
    simp only [State.holding, ht, hs, holding_count, Worker.isHolding, List.length_cons]
    simp
    omega
  | drained pre post ht hs hc =>
    refine ⟨[], by simp, ?_⟩
    simp only [State.holding, ht, holding_count, Worker.isHolding]
    simp
  | enter pre post v ht =>
    refine ⟨[v], rfl, ?_⟩
    simp only [State.holding, ht, holding_count, Worker.isHolding]
    simp
    omega
  | ret pre post v ht =>
    refine ⟨[], by simp, ?_⟩
    cases hfv : (p.f v s.mem).2 with
    | true =>
      simp only [State.holding, ht, holding_count, Worker.isHolding]
      simp
    | false =>
      simp only [State.holding, ht, holding_count, Worker.isHolding]
      simp
  | stopCall pre post ht =>
    refine ⟨[], by simp, ?_⟩
    simp only [State.holding, ht, holding_count, Worker.isHolding]
    simp

theorem exec_calls (p : Setup σ α) (s s' : State σ α) (more : List Action)
    (h : p.exec s more = some s') :
    ∃ t, s'.calls = s.calls ++ t ∧
      t.length + s'.holding + s'.sendCh.length
        = s.holding + s.sendCh.length + more.count Action.send := by
  induction more generalizing s with
  | nil =>
    simp [Setup.exec] at h
    subst h
    exact ⟨[], by simp, by simp⟩
  | cons a rest ih =>
    simp only [Setup.exec] at h
    cases hs : p.step s a with
    | none => simp [hs] at h
    | some s1 =>
      simp [hs] at h
      obtain ⟨t1, h1, h2⟩ := step_calls p s s1 a (step_sound p s s1 a hs)
      obtain ⟨t2, h3, h4⟩ := ih s1 h
      refine ⟨t1 ++ t2, by rw [h3, h1, List.append_assoc], ?_⟩
      rw [count_send_cons, List.length_append]
      omega

/-- When the stop signal has been raised some task has ended, so fewer than all tasks have an
item in hand. -/
theorem holding_lt_of_stop (p : Setup σ α) (mem0 : σ) (s : State σ α) (hi : Inv p mem0 s)
    (hstop : s.stopChClosed = true) : s.holding + 1 ≤ p.maxGoroutines := by
  obtain ⟨w, hw, hf⟩ := hi.stop_fin hstop
  obtain ⟨pre, post, ht⟩ := List.append_of_mem hw
  have h1 := hi.tasks_len
  have h2 := List.length_filter_le Worker.isHolding pre
  have h3 := List.length_filter_le Worker.isHolding post
  rw [ht, List.length_append, List.length_cons] at h1
  simp only [State.holding, ht, holding_count, hf, Worker.isHolding]
  simp
  omega

/-! ## The naturals with a callback that stops at 100 -/

theorem allContinue_stopAt100 (g : Nat → σ → σ) (l : List (Nat × Unit)) (st : σ)
    (h : allContinue (fun (v : Nat × Unit) => stopAt100 g v.1) l st = true) :
    ∀ v ∈ l, v.1 ≠ 100 := by
  induction l generalizing st with
  | nil =>
    intro v hv
    simp at hv
  | cons x xs ih =>
    simp only [allContinue, Bool.and_eq_true] at h
    intro v hv
    rcases List.mem_cons.mp hv with hv | hv
    · rw [hv]
      simpa [stopAt100] using h.1
    · exact ih _ h.2 v hv

theorem of_map_naturals (xs : List (Nat × Unit)) (input : Source (Nat × Unit))
    (hin : input = fun i => (naturals i).map (fun v => (v, ())))
    (h : xs.map some = (List.range xs.length).map input) :
    xs = (List.range xs.length).map (fun i => (i, ())) := by
  have e : (List.range xs.length).map input
      = ((List.range xs.length).map (fun i => (i, ()))).map some := by
    rw [hin]
    simp [naturals]
  rw [e] at h
  exact List.map_injective_iff.mpr (Option.some_injective _) h

/-- Over the naturals, the items that have left the source are 0, 1, 2, ... in order. -/
theorem handled_naturals (p : Setup σ (Nat × Unit)) (mem0 : σ)
    (hin : p.input = fun i => (naturals i).map (fun v => (v, ())))
    (s : State σ (Nat × Unit)) (hi : Inv p mem0 s) :
    s.handled = (List.range s.handled.length).map (fun i => (i, ())) :=
  of_map_naturals _ _ hin hi.items

/-- Over the naturals, the items the tasks have received are 0, 1, 2, ... in order. -/
theorem taken_naturals (p : Setup σ (Nat × Unit)) (mem0 : σ)
    (hin : p.input = fun i => (naturals i).map (fun v => (v, ())))
    (s : State σ (Nat × Unit)) (hi : Inv p mem0 s) :
    s.taken = (List.range s.taken.length).map (fun i => (i, ())) :=
  of_map_naturals _ _ hin (taken_in_source_order p mem0 s hi)

/-- Over the naturals, a run of items that starts the received items and on which the callback
always continued has at most 100 items. -/
theorem continued_le (g : Nat → σ → σ) (p : Setup σ (Nat × Unit)) (mem0 : σ)
    (hin : p.input = fun i => (naturals i).map (fun v => (v, ())))
    (hf : p.f = fun v => stopAt100 g v.1)
    (s : State σ (Nat × Unit)) (hi : Inv p mem0 s) (r rest : List (Nat × Unit))
    (hr : s.taken = r ++ rest) (hc : allContinue p.f r mem0 = true) : r.length ≤ 100 := by
  by_contra hlt
  have hlt : 100 < r.length := by omega
  have hh := taken_naturals p mem0 hin s hi
  have hlen : 100 < s.taken.length := by
    rw [hr, List.length_append]
    omega
  have h1 : s.taken[100]? = some (100, ()) := by
    rw [hh, List.getElem?_map, List.getElem?_range (by simpa using hlen)]
    rfl
  rw [hr, List.getElem?_append_left hlt] at h1
  have hmem := List.getElem?_mem h1
  rw [hf] at hc
  exact allContinue_stopAt100 g r mem0 hc _ hmem rfl

/-- With one worker over the naturals and the callback that stops at 100, at most 101 items
are received and at most 103 items are pulled. -/
theorem one_naturals_bounds (g : Nat → σ → σ) (p : Setup σ (Nat × Unit)) (mem0 : σ)
    (hin : p.input = fun i => (naturals i).map (fun v => (v, ())))
    (hf : p.f = fun v => stopAt100 g v.1) (hm : p.maxGoroutines = 1)
    (s : State σ (Nat × Unit)) (hi : Inv p mem0 s) (ho : InvOne p mem0 s) :
    s.taken.length ≤ 101 ∧ s.pulled ≤ 103 := by
  obtain ⟨⟨w0, hw0, hok⟩, o2, o3⟩ := ho
  have hsome : ∀ n, p.input n ≠ none := by
    intro n
    rw [hin]
    simp [naturals]
  have hleft : (s.taken = s.calls ∧ s.calls = s.rets ∧ LeftLoop p mem0 s) →
      s.taken.length ≤ 101 := by
    intro h
    rcases h.2.2 with ⟨r, v, hr, ha, _⟩ | hB
    · have := continued_le g p mem0 hin hf s hi r [v] (by rw [h.1, h.2.1, hr]) ha
      rw [h.1, h.2.1, hr, List.length_append, List.length_singleton]
      omega
    · exact absurd hB.2.2.2.1 (hsome _)
  have htaken : s.taken.length ≤ 101 := by
    cases w0 with
    | receiving =>
      simp only [OneTask] at hok
      have := continued_le g p mem0 hin hf s hi s.rets [] (by simp [hok.1, hok.2.1]) hok.2.2
      rw [hok.1, hok.2.1]
      omega
    | holding v =>
      simp only [OneTask] at hok
      have := continued_le g p mem0 hin hf s hi s.rets [v] (by rw [hok.1, hok.2.1]) hok.2.2
      rw [hok.1, hok.2.1, List.length_append, List.length_singleton]
      omega
    | calling v =>
      simp only [OneTask] at hok
      have := continued_le g p mem0 hin hf s hi s.rets [v] (by rw [hok.1, hok.2.1]) hok.2.2
      rw [hok.1, hok.2.1, List.length_append, List.length_singleton]
      omega
    | returning => exact hleft hok
    | finished => exact hleft hok
  refine ⟨htaken, ?_⟩
  have hbuf := hi.buf_le
  rw [hm] at hbuf
  rcases hi.pulled_eq with h | ⟨h, hb, _⟩
  · have hheld : s.bridge.held.length ≤ 1 := by
      cases s.bridge <;> simp [Bridge.held]
    rw [h]
    simp only [State.handled, List.length_append]
    omega
  · rw [h]
    simp only [State.handled, List.length_append, hb, Bridge.held, List.length_nil]
    omega

/-- With one worker over the naturals and the callback that stops at 100, when the task has
ended the callback has been entered on 0, 1, ..., 100. -/
theorem one_naturals_returned (g : Nat → σ → σ) (p : Setup σ (Nat × Unit)) (mem0 : σ)
    (hin : p.input = fun i => (naturals i).map (fun v => (v, ())))
    (hf : p.f = fun v => stopAt100 g v.1)
    (s : State σ (Nat × Unit)) (hi : Inv p mem0 s) (ho : InvOne p mem0 s)
    (hr : s.returned = true) :
    s.calls = (List.range 101).map (fun i => (i, ())) := by
  have hcalls := of_map_naturals _ _ hin (calls_in_source_order p mem0 s hi ho)
  obtain ⟨⟨w0, hw0, hok⟩, o2, o3⟩ := ho
  have hfin : w0 = .finished := by
    rw [State.returned, hw0] at hr
    cases w0 <;> simp [Worker.isFinished] at hr ⊢
  subst hfin
  simp only [OneTask] at hok
  obtain ⟨hk1, hk2, hk3⟩ := hok
  have hsome : ∀ n, p.input n ≠ none := by
    intro n
    rw [hin]
    simp [naturals]
  rcases hk3 with ⟨r, v, hr', ha, hv⟩ | hB
  · have hv100 : v.1 = 100 := by
      rw [hf] at hv
      simpa [stopAt100] using hv
    have hlast : s.calls[r.length]? = some v := by
      rw [hk2, hr']
      simp
    have hlen : s.calls.length = r.length + 1 := by
      rw [hk2, hr']
      simp
    rw [hcalls, List.getElem?_map, List.getElem?_range (by omega)] at hlast
    simp only [Option.map_some', Option.some.injEq] at hlast
    have : r.length = 100 := by
      rw [← hv100, ← hlast]
    rw [hcalls, hlen, this]
  · exact absurd hB.2.2.2.1 (hsome _)

/-! ## Any number of workers over the naturals: a run goes on only by late sends -/

theorem stopped100_start (p : Setup σ (Nat × Unit)) (mem0 : σ) :
    Stopped100 (p.start mem0) := by
  intro h
  obtain ⟨v, hv, _⟩ := h
  simp [Setup.start] at hv

theorem stopped100_step (g : Nat → σ → σ) (p : Setup σ (Nat × Unit))
    (hf : p.f = fun v => stopAt100 g v.1) (s s' : State σ (Nat × Unit)) (a : Action)
    (hs : Stopped100 s) (h : Step p s a s') : Stopped100 s' := by
  cases h with
  | pullItem v hb hv => exact hs
  | pullEnd hb hv => exact hs
  | send v hb hlt => exact hs
  | stop v hb hc => exact hs
  | recv pre post v rest ht hsc =>
    intro h
    have := hs h
    rw [ht] at this
    exact left_other pre post _ _ (by simp) this
  | drained pre post ht hsc hc =>
    intro _
    exact ⟨.returning, by simp, Or.inl rfl⟩
  | enter pre post v ht =>
    intro h
    have := hs h
    rw [ht] at this
    exact left_other pre post _ _ (by simp) this
  | ret pre post v ht =>
    intro h
    obtain ⟨u, hu, hu100⟩ := h
    by_cases hv : v.1 = 100
    · refine ⟨.returning, ?_, Or.inl rfl⟩
      have : (p.f v s.mem).2 = false := by
        rw [hf]
        simp [stopAt100, hv]
      simp [this]
    · have hu' : u ∈ s.rets := by
        simp only [List.mem_append, List.mem_singleton] at hu
        rcases hu with hu | hu
        · exact hu
        · rw [hu] at hu100
          exact absurd hu100 hv
      have := hs ⟨u, hu', hu100⟩
      rw [ht] at this
      exact left_other pre post _ _ (by simp) this
  | stopCall pre post ht =>
    intro _
    exact ⟨.finished, by simp, Or.inr rfl⟩

theorem cost_sum_le (ws : List (Worker α)) : (ws.map Worker.cost).sum ≤ 4 * ws.length := by
  induction ws with
  | nil => simp
  | cons w ws ih =>
    simp only [List.map_cons, List.sum_cons, List.length_cons]
    cases w <;> simp only [Worker.cost] <;> omega

theorem bridge_cost_le (b : Bridge α) : b.cost ≤ 2 := by
  cases b <;> simp [Bridge.cost]

theorem any_stopping_split (pre post : List (Worker (Nat × Unit))) (w : Worker (Nat × Unit)) :
    (pre ++ w :: post).any Worker.stopping
      = (pre.any Worker.stopping || (w.stopping || post.any Worker.stopping)) := by
  simp [List.any_append]

/-- A task that is stopping stays so when it moves. -/
theorem stopDue_step (g : Nat → σ → σ) (p : Setup σ (Nat × Unit))
    (hf : p.f = fun v => stopAt100 g v.1) (s s' : State σ (Nat × Unit)) (a : Action)
    (hd : s.stopDue = true) (h : Step p s a s') : s'.stopDue = true := by
  cases h with
  | pullItem v hb hv => exact hd
  | pullEnd hb hv => exact hd
  | send v hb hlt => exact hd
  | stop v hb hc => exact hd
  | recv pre post v rest ht hsc =>
    simp only [State.stopDue, ht, any_stopping_split, Worker.stopping] at hd ⊢
    simp only [Bool.or_eq_true, Bool.false_or] at hd ⊢
    rcases hd with h | h | h
    · exact Or.inl h
    · exact Or.inr (Or.inl h)
    · exact Or.inr (Or.inr (Or.inr h))
  | drained pre post ht hsc hc =>
    simp [State.stopDue, any_stopping_split, Worker.stopping]
  | enter pre post v ht =>
    simp only [State.stopDue, ht, any_stopping_split, Worker.stopping] at hd ⊢
    exact hd
  | ret pre post v ht =>
    simp only [State.stopDue, ht, any_stopping_split, Worker.stopping] at hd ⊢
    simp only [Bool.or_eq_true, beq_iff_eq] at hd ⊢
    rcases hd with h | h | h | h
    · exact Or.inl h
    · exact Or.inr (Or.inl h)
    · right
      right
      left
      have : (p.f v s.mem).2 = false := by
        rw [hf]
        simp [stopAt100, h]
      simp [this, Worker.stopping]
    · exact Or.inr (Or.inr (Or.inr h))
  | stopCall pre post ht =>
    simp [State.stopDue]

/-- While the stop signal is not due, no task has left its loop. -/
theorem not_due_tasks (s : State σ (Nat × Unit)) (hd : s.stopDue = false) :
    s.stopChClosed = false ∧ ∀ w ∈ s.tasks, w.stopping = false := by
  simp only [State.stopDue, Bool.or_eq_false_iff] at hd
  refine ⟨hd.1, ?_⟩
  intro w hw
  by_contra hne
  have : s.tasks.any Worker.stopping = true := List.any_eq_true.mpr ⟨w, hw, by simpa using hne⟩
  rw [hd.2] at this
  cases this

/-- Over the naturals with the callback that stops at 100, while the stop signal is not due
the tasks have received at most the items 0, ..., 99. -/
theorem taken_le_of_not_due (p : Setup σ (Nat × Unit)) (mem0 : σ)
    (hin : p.input = fun i => (naturals i).map (fun v => (v, ())))
    (s : State σ (Nat × Unit)) (hi : Inv p mem0 s) (h100 : Stopped100 s)
    (hd : s.stopDue = false) : s.taken.length ≤ 100 := by
  obtain ⟨_, hall⟩ := not_due_tasks s hd
  by_contra hlt
  have hmem : ((100 : Nat), ()) ∈ s.taken := by
    rw [taken_naturals p mem0 hin s hi]
    simp only [List.mem_map, List.mem_range]
    exact ⟨100, by omega, rfl⟩
  have hmem2 := hi.in_hand.mem_iff.mp hmem
  rcases List.mem_append.mp hmem2 with hc | hh
  · have hmem3 := hi.inflight.mem_iff.mp hc
    rcases List.mem_append.mp hmem3 with hr | hcall
    · obtain ⟨w, hw, hwf⟩ := h100 ⟨_, hr, rfl⟩
      have := hall w hw
      rcases hwf with h | h <;> simp [h, Worker.stopping] at this
    · obtain ⟨w, hw, hwi⟩ := List.mem_filterMap.mp hcall
      have := hall w hw
      cases w <;> simp [Worker.item] at hwi
      simp [Worker.stopping, hwi] at this
  · obtain ⟨w, hw, hwi⟩ := List.mem_filterMap.mp hh
    have := hall w hw
    cases w <;> simp [Worker.inHand] at hwi
    simp [Worker.stopping, hwi] at this

theorem rank_sum_zero (ws : List (Worker (Nat × Unit)))
    (hall : ∀ w ∈ ws, w.stopping = false) : (ws.map Worker.rank).sum = 0 := by
  induction ws with
  | nil => simp
  | cons w ws ih =>
    simp only [List.map_cons, List.sum_cons]
    rw [ih (fun x hx => hall x (List.mem_cons_of_mem _ hx))]
    have := hall w (List.mem_cons_self _ _)
    cases w <;> simp [Worker.stopping, Worker.rank] at this ⊢

/-- Over the naturals with the callback that stops at 100, while the stop signal is not due
and `sendCh` is open the run has taken at most `501 + 2 * m` steps. -/
theorem progress_le_of_not_due (p : Setup σ (Nat × Unit)) (mem0 : σ)
    (hin : p.input = fun i => (naturals i).map (fun v => (v, ())))
    (s : State σ (Nat × Unit)) (hi : Inv p mem0 s) (h100 : Stopped100 s)
    (hd : s.stopDue = false) (hc : s.sendChClosed = false) :
    s.progress ≤ 501 + 2 * p.maxGoroutines := by
  have h1 := taken_le_of_not_due p mem0 hin s hi h100 hd
  have h2 := rank_sum_zero s.tasks (not_due_tasks s hd).2
  have h3 := hi.buf_le
  have h4 := hi.in_hand.length_eq
  have h5 := hi.inflight.length_eq
  have hb : s.bridge ≠ .finished := by
    intro h
    have := hi.closed_iff.mpr h
    rw [hc] at this
    cases this
  have h6 : s.bridge.rank = 0 := by
    cases hbr : s.bridge <;> simp [Bridge.rank]
    exact hb hbr
  have h7 : s.bridge.held.length ≤ 1 := by
    cases s.bridge <;> simp [Bridge.held]
  have h8 : s.pulled = s.handled.length := by
    rcases hi.pulled_eq with h | ⟨_, h, _⟩
    · exact h
    · exact absurd h hb
  simp only [State.handled, List.length_append] at h4 h5 h8
  simp only [State.progress, h2, h6]
  omega

/-- Over the naturals with the callback that stops at 100: every step brings the end of the run
closer by one, except a late send, which puts it off by at most four steps. -/
theorem stepsLeft_step (g : Nat → σ → σ) (p : Setup σ (Nat × Unit)) (mem0 : σ)
    (hin : p.input = fun i => (naturals i).map (fun v => (v, ())))
    (hf : p.f = fun v => stopAt100 g v.1)
    (s s' : State σ (Nat × Unit)) (a : Action) (hi : Inv p mem0 s) (h100 : Stopped100 s)
    (h : Step p s a s') :
    s'.stepsLeft p + 1 ≤ s.stepsLeft p + 5 * (if s.lateSend a = true then 1 else 0) := by
  have hi' := inv_step p mem0 s s' a hi h
  have h100' := stopped100_step g p hf s s' a h100 h
  by_cases hD : s.stopDue = true ∨ s.sendChClosed = true
  · have hD' : s'.stopDue = true ∨ s'.sendChClosed = true := by
      rcases hD with hd | hc
      · exact Or.inl (stopDue_step g p hf s s' a hd h)
      · right
        cases h <;> first | exact hc | rfl
    rw [State.stepsLeft, if_pos hD', State.stepsLeft, if_pos hD]
    have hcl := hi.closed_iff
    cases h with
    | pullItem v hb hv =>
      simp only [hb, Bridge.cost]
      omega
    | pullEnd hb hv =>
      simp only [hb, Bridge.cost]
      omega
    | send v hb hlt =>
      have hdue : s.stopDue = true := by
        rcases hD with hd | hc
        · exact hd
        · rw [hcl, hb] at hc
          cases hc
      simp only [hb, Bridge.cost, State.lateSend, hdue, List.length_append,
        List.length_singleton]
      simp
      omega
    | stop v hb hc =>
      simp only [hb, Bridge.cost]
      omega
    | recv pre post v rest ht hs =>
      simp only [ht, hs, List.map_append, List.map_cons, List.sum_append, List.sum_cons,
        Worker.cost, List.length_cons]
      omega
    | drained pre post ht hs hc =>
      simp only [ht, List.map_append, List.map_cons, List.sum_append, List.sum_cons,
        Worker.cost]
      omega
    | enter pre post v ht =>
      simp only [ht, List.map_append, List.map_cons, List.sum_append, List.sum_cons,
        Worker.cost]
      omega
    | ret pre post v ht =>
      cases hfv : (p.f v s.mem).2 with
      | true =>
        simp only [ht, List.map_append, List.map_cons, List.sum_append, List.sum_cons,
          Worker.cost, if_true]
        omega
      | false =>
        simp only [ht, List.map_append, List.map_cons, List.sum_append, List.sum_cons,
          Worker.cost, Bool.false_eq_true, if_false]
        omega
    | stopCall pre post ht =>
      simp only [ht, List.map_append, List.map_cons, List.sum_append, List.sum_cons,
        Worker.cost]
      omega
  · have hd : s.stopDue = false := by
      cases hx : s.stopDue
      · rfl
      · exact absurd (Or.inl hx) hD
    have hc : s.sendChClosed = false := by
      cases hx : s.sendChClosed
      · rfl
      · exact absurd (Or.inr hx) hD
    rw [State.stepsLeft, State.stepsLeft, if_neg hD]
    by_cases hD' : s'.stopDue = true ∨ s'.sendChClosed = true
    · rw [if_pos hD']
      have h1 := cost_sum_le s'.tasks
      rw [hi'.tasks_len] at h1
      have h2 := hi'.buf_le
      have h3 := bridge_cost_le s'.bridge
      omega
    · have hd' : s'.stopDue = false := by
        cases hx : s'.stopDue
        · rfl
        · exact absurd (Or.inl hx) hD'
      have hc' : s'.sendChClosed = false := by
        cases hx : s'.sendChClosed
        · rfl
        · exact absurd (Or.inr hx) hD'
      rw [if_neg hD']
      have h1 := step_progress p s s' a h
      have h2 := progress_le_of_not_due p mem0 hin s' hi' h100' hd' hc'
      omega

theorem stepsLeft_start (p : Setup σ (Nat × Unit)) (mem0 : σ) :
    (p.start mem0).stepsLeft p = 9 * p.maxGoroutines + 504 := by
  have h : ¬ ((p.start mem0).stopDue = true ∨ (p.start mem0).sendChClosed = true) := by
    simp [State.stopDue, Setup.start, Worker.stopping]
  rw [State.stepsLeft, if_neg h]
  simp only [State.progress, Setup.start, List.length_nil, List.map_replicate, Worker.rank,
    Bridge.rank, List.sum_replicate]
  simp
  omega

/-- Over the naturals with the callback that stops at 100, a schedule is longer than the steps
that are left at its start only by five steps for each late send. -/
theorem exec_stepsLeft (g : Nat → σ → σ) (p : Setup σ (Nat × Unit)) (mem0 : σ)
    (hin : p.input = fun i => (naturals i).map (fun v => (v, ())))
    (hf : p.f = fun v => stopAt100 g v.1)
    (acts : List Action) (s s' : State σ (Nat × Unit)) (hi : Inv p mem0 s)
    (h100 : Stopped100 s) (h : p.exec s acts = some s') :
    acts.length + s'.stepsLeft p ≤ s.stepsLeft p + 5 * p.lateSends s acts := by
  induction acts generalizing s with
  | nil =>
    simp [Setup.exec] at h
    subst h
    simp [Setup.lateSends]
  | cons a rest ih =>
    simp only [Setup.exec] at h
    cases hs : p.step s a with
    | none => simp [hs] at h
    | some s1 =>
      simp [hs] at h
      have hstep := step_sound p s s1 a hs
      have h1 := stepsLeft_step g p mem0 hin hf s s1 a hi h100 hstep
      have h2 := ih s1 (inv_step p mem0 s s1 a hi hstep)
        (stopped100_step g p hf s s1 a h100 hstep) h
      simp only [Setup.lateSends, hs, List.length_cons]
      split <;> simp_all <;> omega

theorem step_pulled (p : Setup σ α) (s s' : State σ α) (a : Action) (h : Step p s a s') :
    s'.pulled ≤ s.pulled + 1 := by
  cases h <;> simp

theorem exec_pulled (p : Setup σ α) (s s' : State σ α) (acts : List Action)
    (h : p.exec s acts = some s') : s'.pulled ≤ s.pulled + acts.length := by
  induction acts generalizing s with
  | nil =>
    simp [Setup.exec] at h
    subst h
    simp
  | cons a rest ih =>
    simp only [Setup.exec] at h
    cases hs : p.step s a with
    | none => simp [hs] at h
    | some s1 =>
      simp [hs] at h
      have h1 := step_pulled p s s1 a (step_sound p s s1 a hs)
      have h2 := ih s1 h
      simp only [List.length_cons]
      omega

/-! ## Runs that do not end -/

theorem exec_segment (p : Setup σ α) (run : Nat → State σ α) (sched : Nat → Action)
    (hstep : ∀ n, p.step (run n) (sched n) = some (run (n + 1))) (k n : Nat) :
    p.exec (run k) (segment sched k n) = some (run (k + n)) := by
  induction n generalizing k with
  | zero => simp [segment, Setup.exec]
  | succ n ih =>
    simp only [segment, Setup.exec, hstep k, Option.some_bind]
    rw [ih (k + 1)]
    congr 2
    omega

theorem length_segment (sched : Nat → Action) (k n : Nat) : (segment sched k n).length = n := by
  induction n generalizing k with
  | zero => simp [segment]
  | succ n ih => simp [segment, ih]

theorem lateSends_segment (p : Setup σ (Nat × Unit)) (run : Nat → State σ (Nat × Unit))
    (sched : Nat → Action) (hstep : ∀ n, p.step (run n) (sched n) = some (run (n + 1)))
    (N : Nat) (hN : ∀ n, N ≤ n → (run n).lateSend (sched n) = false) (k n : Nat) :
    p.lateSends (run k) (segment sched k n) ≤ N - k := by
  induction n generalizing k with
  | zero => simp [segment, Setup.lateSends]
  | succ n ih =>
    simp only [segment, Setup.lateSends, hstep k]
    have h1 := ih (k + 1)
    by_cases hk : N ≤ k
    · rw [hN k hk]
      simp
      omega
    · split <;> omega

/-- Over the naturals with the callback that stops at 100, a run that does not end takes a
late send again and again. -/
theorem late_again_and_again (g : Nat → σ → σ) (p : Setup σ (Nat × Unit)) (mem0 : σ)
    (hin : p.input = fun i => (naturals i).map (fun v => (v, ())))
    (hf : p.f = fun v => stopAt100 g v.1)
    (run : Nat → State σ (Nat × Unit)) (sched : Nat → Action)
    (h0 : run 0 = p.start mem0)
    (hstep : ∀ n, p.step (run n) (sched n) = some (run (n + 1))) (N : Nat) :
    ∃ n, N ≤ n ∧ (run n).lateSend (sched n) = true := by
  by_contra hno
  have hN : ∀ n, N ≤ n → (run n).lateSend (sched n) = false := by
    intro n hn
    cases hx : (run n).lateSend (sched n)
    · rfl
    · exact absurd ⟨n, hn, hx⟩ hno
  have hex := exec_segment p run sched hstep 0 (9 * p.maxGoroutines + 505 + 5 * N)
  have hlate := lateSends_segment p run sched hstep N hN 0 (9 * p.maxGoroutines + 505 + 5 * N)
  rw [h0] at hex hlate
  have hb := exec_stepsLeft g p mem0 hin hf _ _ _ (inv_start p mem0) (stopped100_start p mem0)
    hex
  rw [length_segment, stepsLeft_start] at hb
  omega


/-! ### Unending runs under a scheduler that starves no task -/

theorem getElem?_split_ne {β : Type} (pre post : List β) (w w' : β) (i : Nat)
    (hne : i ≠ pre.length) : (pre ++ w' :: post)[i]? = (pre ++ w :: post)[i]? := by
  induction pre generalizing i with
  | nil =>
    cases i with
    | zero => exact absurd rfl hne
    | succ k => simp
  | cons x xs ih =>
    cases i with
    | zero => simp
    | succ k =>
      simp only [List.cons_append, List.getElem?_cons_succ]
      exact ih k (fun hk => hne (by simp [hk]))

/-- A step of another goroutine leaves a task where it is. -/
theorem step_other_task (p : Setup σ α) (s s' : State σ α) (a : Action) (i : Nat)
    (h : Step p s a s') (hne : a ≠ .worker i) : s'.tasks[i]? = s.tasks[i]? := by
  have hi : ∀ (pre : List (Worker α)), Action.worker pre.length ≠ .worker i →
      i ≠ pre.length := by
    intro pre hp he
    exact hp (by rw [he])
  cases h with
  | pullItem v hb hv => rfl
  | pullEnd hb hv => rfl
  | send v hb hlt => rfl
  | stop v hb hc => rfl
  | recv pre post v rest ht hsc =>
    simp only [ht]
    exact getElem?_split_ne pre post _ _ i (hi pre hne)
  | drained pre post ht hsc hcl =>
    simp only [ht]
    exact getElem?_split_ne pre post _ _ i (hi pre hne)
  | enter pre post v ht =>
    simp only [ht]
    exact getElem?_split_ne pre post _ _ i (hi pre hne)
  | ret pre post v ht =>
    simp only [ht]
    exact getElem?_split_ne pre post _ _ i (hi pre hne)
  | stopCall pre post ht =>
    simp only [ht]
    exact getElem?_split_ne pre post _ _ i (hi pre hne)

/-- A stopping task that moves stays stopping and comes nearer to its end. -/
theorem step_stopping_task (g : Nat → σ → σ) (p : Setup σ (Nat × Unit))
    (hf : p.f = fun v => stopAt100 g v.1) (s s' : State σ (Nat × Unit)) (i : Nat)
    (w : Worker (Nat × Unit)) (h : Step p s (.worker i) s') (hw : s.tasks[i]? = some w)
    (hs : w.stopping = true) :
    ∃ w', s'.tasks[i]? = some w' ∧ w'.stopping = true ∧ w'.cost < w.cost := by
  cases h with
  | recv pre post v rest ht hsc =>
    rw [ht, getElem?_split] at hw
    cases hw
    simp [Worker.stopping] at hs
  | drained pre post ht hsc hcl =>
    rw [ht, getElem?_split] at hw
    cases hw
    simp [Worker.stopping] at hs
  | enter pre post v ht =>
    rw [ht, getElem?_split] at hw
    cases hw
    exact ⟨.calling v, getElem?_split pre post _, hs, by simp [Worker.cost]⟩
  | ret pre post v ht =>
    rw [ht, getElem?_split] at hw
    cases hw
    have hv : v.1 = 100 := by simpa [Worker.stopping] using hs
    have hfv : (p.f v s.mem).2 = false := by simp [hf, stopAt100, hv]
    refine ⟨.returning, ?_, rfl, by simp [Worker.cost]⟩
    simp only [hfv]
    exact getElem?_split pre post _
  | stopCall pre post ht =>
    rw [ht, getElem?_split] at hw
    cases hw
    exact ⟨.finished, getElem?_split pre post _, rfl, by simp [Worker.cost]⟩

/-- A stopping task that has not ended can move. -/
theorem stopping_can_move (p : Setup σ (Nat × Unit)) (s : State σ (Nat × Unit)) (i : Nat)
    (w : Worker (Nat × Unit)) (hw : s.tasks[i]? = some w) (hs : w.stopping = true)
    (hne : w ≠ .finished) : ∃ s', p.step s (.worker i) = some s' := by
  obtain ⟨pre, post, ht, hlen, _⟩ := split_at_index s.tasks i w hw
  subst hlen
  cases w with
  | receiving => simp [Worker.stopping] at hs
  | holding v => exact ⟨_, step_complete p s _ _ (Step.enter s pre post v ht)⟩
  | calling v => exact ⟨_, step_complete p s _ _ (Step.ret s pre post v ht)⟩
  | returning => exact ⟨_, step_complete p s _ _ (Step.stopCall s pre post ht)⟩
  | finished => exact absurd rfl hne

theorem mem_of_index {β : Type} (l : List β) (i : Nat) (w : β) (h : l[i]? = some w) :
    w ∈ l := by
  obtain ⟨pre, post, hl, _, _⟩ := split_at_index l i w h
  rw [hl]
  simp

theorem step_stop_closed (p : Setup σ α) (s s' : State σ α) (a : Action) (h : Step p s a s')
    (hc : s.stopChClosed = true) : s'.stopChClosed = true := by
  cases h <;> first | exact hc | rfl

theorem run_stop_closed (p : Setup σ α) (run : Nat → State σ α) (sched : Nat → Action)
    (hstep : ∀ n, p.step (run n) (sched n) = some (run (n + 1))) (n : Nat)
    (hc : (run n).stopChClosed = true) (k : Nat) (hk : n ≤ k) :
    (run k).stopChClosed = true := by
  induction k with
  | zero =>
    have : n = 0 := by omega
    subst this
    exact hc
  | succ k ih =>
    by_cases hk' : n ≤ k
    · exact step_stop_closed p _ _ _ (step_sound p _ _ _ (hstep k)) (ih hk')
    · have : n = k + 1 := by omega
      subst this
      exact hc

theorem inv_run (p : Setup σ α) (mem0 : σ) (run : Nat → State σ α) (sched : Nat → Action)
    (h0 : run 0 = p.start mem0)
    (hstep : ∀ n, p.step (run n) (sched n) = some (run (n + 1))) (n : Nat) :
    Inv p mem0 (run n) := by
  have hex := exec_segment p run sched hstep 0 n
  rw [h0, Nat.zero_add] at hex
  exact inv_exec p mem0 _ _ hex

/-- A task stays where it is as long as it is not moved. -/
theorem run_task_waits (p : Setup σ α) (run : Nat → State σ α) (sched : Nat → Action)
    (hstep : ∀ n, p.step (run n) (sched n) = some (run (n + 1))) (i n : Nat) (d : Nat)
    (hno : ∀ j, n ≤ j → j < n + d → sched j ≠ .worker i) :
    (run (n + d)).tasks[i]? = (run n).tasks[i]? := by
  induction d with
  | zero => rfl
  | succ d ih =>
    have h1 := step_other_task p _ _ _ i (step_sound p _ _ _ (hstep (n + d)))
      (hno (n + d) (by omega) (by omega))
    have h2 := ih (fun j hj hlt => hno j hj (by omega))
    rw [← h2, ← h1]
    rfl

/-- Under a scheduler that starves no task, a stopping task is moved. -/
theorem fair_moves_stopping (p : Setup σ (Nat × Unit)) (run : Nat → State σ (Nat × Unit))
    (sched : Nat → Action) (hstep : ∀ n, p.step (run n) (sched n) = some (run (n + 1)))
    (hfair : FairToTasks p run sched) (i n : Nat) (w : Worker (Nat × Unit))
    (hw : (run n).tasks[i]? = some w) (hs : w.stopping = true) (hne : w ≠ .finished) :
    ∃ d, sched (n + d) = .worker i ∧ (run (n + d)).tasks[i]? = some w := by
  have hex : ∃ d, sched (n + d) = .worker i := by
    by_contra hno
    have hno' : ∀ j, n ≤ j → sched j ≠ .worker i := by
      intro j hj he
      apply hno
      refine ⟨j - n, ?_⟩
      rw [← he]
      congr 1
      omega
    have hen : ∀ k, n ≤ k → ∃ s', p.step (run k) (.worker i) = some s' := by
      intro k hk
      have hwait := run_task_waits p run sched hstep i n (k - n)
        (fun j hj _ => hno' j hj)
      have hk' : n + (k - n) = k := by omega
      rw [hk'] at hwait
      exact stopping_can_move p (run k) i w (by rw [hwait, hw]) hs hne
    obtain ⟨k, hk, he⟩ := hfair i n hen
    exact hno' k hk he
  refine ⟨Nat.find hex, Nat.find_spec hex, ?_⟩
  rw [run_task_waits p run sched hstep i n (Nat.find hex) ?_, hw]
  intro j hj hlt he
  have hmin := Nat.find_min hex (m := j - n) (by omega)
  apply hmin
  rw [← he]
  congr 1
  omega

/-- Under a scheduler that starves no task, a stopping task raises the stop signal. -/
theorem fair_raises_stop (g : Nat → σ → σ) (p : Setup σ (Nat × Unit)) (mem0 : σ)
    (hf : p.f = fun v => stopAt100 g v.1)
    (run : Nat → State σ (Nat × Unit)) (sched : Nat → Action)
    (h0 : run 0 = p.start mem0)
    (hstep : ∀ n, p.step (run n) (sched n) = some (run (n + 1)))
    (hfair : FairToTasks p run sched) (i : Nat) (c : Nat) :
    ∀ n w, (run n).tasks[i]? = some w → w.stopping = true → w.cost ≤ c →
      ∃ n1, n ≤ n1 ∧ (run n1).stopChClosed = true := by
  induction c with
  | zero =>
    intro n w hw hs hc
    have hfin : w = .finished := by
      cases w <;> simp [Worker.cost] at hc
      rfl
    exact ⟨n, Nat.le_refl n, (inv_run p mem0 run sched h0 hstep n).fin_stop w
      (mem_of_index _ i w hw) hfin⟩
  | succ c ih =>
    intro n w hw hs hc
    by_cases hfin : w = .finished
    · exact ⟨n, Nat.le_refl n, (inv_run p mem0 run sched h0 hstep n).fin_stop w
        (mem_of_index _ i w hw) hfin⟩
    · obtain ⟨d, hd, hwd⟩ := fair_moves_stopping p run sched hstep hfair i n w hw hs hfin
      have hst := step_sound p _ _ _ (hstep (n + d))
      rw [hd] at hst
      obtain ⟨w', hw', hs', hlt⟩ := step_stopping_task g p hf _ _ i w hst hwd hs
      obtain ⟨n1, hn1, hcl⟩ := ih (n + d + 1) w' hw' hs' (by omega)
      exact ⟨n1, by omega, hcl⟩

/-- Over the naturals with the callback that stops at 100, under a scheduler that starves no
task, a run that does not end takes the send case of the `select` again and again while the
stop case is ready. -/
theorem race_again_and_again (g : Nat → σ → σ) (p : Setup σ (Nat × Unit)) (mem0 : σ)
    (hin : p.input = fun i => (naturals i).map (fun v => (v, ())))
    (hf : p.f = fun v => stopAt100 g v.1)
    (run : Nat → State σ (Nat × Unit)) (sched : Nat → Action)
    (h0 : run 0 = p.start mem0)
    (hstep : ∀ n, p.step (run n) (sched n) = some (run (n + 1)))
    (hfair : FairToTasks p run sched) (N : Nat) :
    ∃ n, N ≤ n ∧ (run n).raceSend (sched n) = true := by
  obtain ⟨n, _, hl⟩ := late_again_and_again g p mem0 hin hf run sched h0 hstep 0
  have hdue : (run n).stopDue = true := by
    simp only [State.lateSend, Bool.and_eq_true] at hl
    exact hl.2
  have hclosed : ∃ n1, (run n1).stopChClosed = true := by
    simp only [State.stopDue, Bool.or_eq_true, List.any_eq_true] at hdue
    rcases hdue with hc | ⟨w, hw, hs⟩
    · exact ⟨n, hc⟩
    · obtain ⟨i, hi⟩ := List.getElem?_of_mem hw
      obtain ⟨n1, _, hcl⟩ :=
        fair_raises_stop g p mem0 hf run sched h0 hstep hfair i w.cost n w hi hs (Nat.le_refl _)
      exact ⟨n1, hcl⟩
  obtain ⟨n1, hcl⟩ := hclosed
  obtain ⟨n2, hn2, hl2⟩ :=
    late_again_and_again g p mem0 hin hf run sched h0 hstep (max N n1)
  refine ⟨n2, le_trans (le_max_left N n1) hn2, ?_⟩
  have hc2 := run_stop_closed p run sched hstep n1 hcl n2 (le_trans (le_max_right N n1) hn2)
  simp only [State.lateSend, Bool.and_eq_true] at hl2
  simp only [State.raceSend, Bool.and_eq_true]
  exact ⟨hl2.1, hc2⟩
/-! ## The claims -/

/-- C1 (completeness).  For a finite sequence `l`, a worker count `m ≥ 1` and a callback that
always answers "continue", ForEach sets up without panic with `m` tasks, and in every run: the
schedule is no longer than `5 * n + 2 * m + 1` steps; as long as some task has not ended some
goroutine can move; the state of the callback is the one the callback `f` leaves after the
calls it has returned from, in the order of the returns; and when all tasks have ended the
items of `l` have been received in the order of `l`, the callback has been entered on each item
of `l` once and on nothing else, and it has returned from each of these calls. -/
theorem forEach_complete (d : Int) (m : Nat) (hm : 1 ≤ m) (l : List (T1 × T2))
    (f : T1 → T2 → σ → σ × Bool) (hf : ∀ a b st, (f a b st).2 = true) (mem0 : σ) :
    ∃ p, SeqIterator2.ForEach d { MaxGoroutines := (m : Int) } (Source.ofList l) f = some p ∧
      p.maxGoroutines = m ∧ (p.start mem0).tasks.length = m ∧
      ∀ acts s, p.exec (p.start mem0) acts = some s →
        acts.length ≤ 5 * l.length + 2 * m + 1 ∧
        (s.returned = false → ∃ a s', p.step s a = some s') ∧
        s.mem = applyAll (fun v => f v.1 v.2) s.rets mem0 ∧
        s.calls.Perm (s.rets ++ s.tasks.filterMap Worker.item) ∧
        (s.returned = true → s.taken = l ∧ s.calls.Perm l ∧ s.rets.Perm l) := by
  refine ⟨_, forEach_pos d m hm _ f, rfl, by simp [Setup.start], ?_⟩
  intro acts s h
  have hi := inv_exec _ mem0 acts s h
  refine ⟨?_, ?_, hi.memfold, hi.inflight, ?_⟩
  · have h1 := schedule_length_le _ mem0 acts s h
    have h2 := pulled_le_length _ mem0 l rfl s hi
    simp only at h1
    omega
  · exact can_step _ mem0 s hi hm
  · intro hr
    have := complete_of_returned _ mem0 l rfl hm (fun v st => hf v.1 v.2 st) acts s h hr
    exact ⟨this.1, this.2.1, this.2.2.1⟩

/-- An instance of `forEach_complete`: two workers, three items, a callback that adds up. -/
theorem forEach_complete_witness :
    ∃ p, SeqIterator2.ForEach 4 { MaxGoroutines := ((2 : Nat) : Int) }
        (Source.ofList [((1 : Nat), (10 : Nat)), (2, 20), (3, 30)])
        (fun a b (st : Nat) => (st + a + b, true)) = some p ∧
      p.maxGoroutines = 2 ∧ (p.start 0).tasks.length = 2 ∧
      ∀ acts s, p.exec (p.start 0) acts = some s →
        acts.length ≤ 5 * [((1 : Nat), (10 : Nat)), (2, 20), (3, 30)].length + 2 * 2 + 1 ∧
        (s.returned = false → ∃ a s', p.step s a = some s') ∧
        s.mem = applyAll (fun (v : Nat × Nat) (st : Nat) => (st + v.1 + v.2, true)) s.rets 0 ∧
        s.calls.Perm (s.rets ++ s.tasks.filterMap Worker.item) ∧
        (s.returned = true → s.taken = [(1, 10), (2, 20), (3, 30)] ∧
          s.calls.Perm [(1, 10), (2, 20), (3, 30)] ∧
          s.rets.Perm [(1, 10), (2, 20), (3, 30)]) :=
  forEach_complete 4 2 (by decide) [(1, 10), (2, 20), (3, 30)]
    (fun a b (st : Nat) => (st + a + b, true)) (fun _ _ _ => rfl) 0

/-- C2 (bounded parallelism).  For a worker count `m ≥ 1`, ForEach starts one bridging
goroutine, at the head of its loop, and exactly `m` tasks, and in every state of every run
there are `m` tasks and at most `m` callback invocations in progress. -/
theorem forEach_bounded (d : Int) (m : Nat) (hm : 1 ≤ m) (input : Source (T1 × T2))
    (f : T1 → T2 → σ → σ × Bool) (mem0 : σ) :
    ∃ p, SeqIterator2.ForEach d { MaxGoroutines := (m : Int) } input f = some p ∧
      (p.start mem0).bridge = .ranging ∧ (p.start mem0).tasks.length = m ∧
      ∀ acts s, p.exec (p.start mem0) acts = some s →
        s.tasks.length = m ∧ s.inProgress ≤ m := by
  refine ⟨_, forEach_pos d m hm _ f, rfl, by simp [Setup.start], ?_⟩
  intro acts s h
  have hi := inv_exec _ mem0 acts s h
  have hlen : s.tasks.length = m := hi.tasks_len
  refine ⟨hlen, ?_⟩
  have := List.length_filter_le Worker.isCalling s.tasks
  simp only [State.inProgress]
  omega

/-- An instance of `forEach_bounded`: three workers over an unbounded sequence of pairs. -/
theorem forEach_bounded_witness :
    ∃ p, SeqIterator2.ForEach 4 { MaxGoroutines := ((3 : Nat) : Int) }
        (fun i => some (i, i + 1)) (fun a b (st : Nat) => (st + a, a < b)) = some p ∧
      (p.start 0).bridge = .ranging ∧ (p.start 0).tasks.length = 3 ∧
      ∀ acts s, p.exec (p.start 0) acts = some s → s.tasks.length = 3 ∧ s.inProgress ≤ 3 :=
  forEach_bounded 4 3 (by decide) (fun i => some (i, i + 1))
    (fun a b (st : Nat) => (st + a, a < b)) 0

/-- C4 (one worker is sequential).  With `MaxGoroutines = 1`, for any sequence and any
callback, in every state of every run: at most one invocation is in progress; the callback has
been entered on the first items of the source, in source order and without a gap; no call
follows a call that answered "stop" (the sequential loop over the calls is called on all of
them); and some goroutine can move until the task has ended.  When the task has ended, the
callback has returned from every call, its calls and the state it leaves are those of the
sequential loop over the calls, and the last call answered "stop" or the source has ended.
For a finite sequence `l`, moreover, a schedule is no longer than `5 * n + 3` steps, the calls
are always an initial part of the calls of the sequential loop over `l`, and when the task has
ended the calls and the state of the callback are those of the sequential loop over `l`. -/
theorem forEach_one_sequential (d : Int) (input : Source (T1 × T2))
    (f : T1 → T2 → σ → σ × Bool) (mem0 : σ) :
    ∃ p, SeqIterator2.ForEach d { MaxGoroutines := 1 } input f = some p ∧
      ∀ acts s, p.exec (p.start mem0) acts = some s →
        s.inProgress ≤ 1 ∧
        s.calls.map some = (List.range s.calls.length).map input ∧
        (sequentialLoop (fun v => f v.1 v.2) s.calls mem0).2 = s.calls ∧
        (s.returned = false → ∃ a s', p.step s a = some s') ∧
        (s.returned = true →
          s.rets = s.calls ∧
          sequentialLoop (fun v => f v.1 v.2) s.calls mem0 = (s.mem, s.calls) ∧
          (allContinue (fun v => f v.1 v.2) s.calls mem0 = false ∨
            input s.calls.length = none)) ∧
        ∀ l, input = Source.ofList l →
          acts.length ≤ 5 * l.length + 3 ∧
          (∃ t, (sequentialLoop (fun v => f v.1 v.2) l mem0).2 = s.calls ++ t) ∧
          (s.returned = true →
            s.calls = (sequentialLoop (fun v => f v.1 v.2) l mem0).2 ∧
            s.mem = (sequentialLoop (fun v => f v.1 v.2) l mem0).1) := by
  refine ⟨_, forEach_pos d 1 (le_refl 1) _ f, ?_⟩
  intro acts s h
  obtain ⟨hi, ho⟩ := invOne_exec _ mem0 rfl acts s h
  refine ⟨?_, ?_, ?_, ?_, ?_, ?_⟩
  · have h1 := List.length_filter_le Worker.isCalling s.tasks
    have h2 : s.tasks.length = 1 := hi.tasks_len
    simp only [State.inProgress]
    omega
  · exact calls_in_source_order _ mem0 s hi ho
  · exact one_calls_consistent _ mem0 s ho
  · exact can_step _ mem0 s hi (le_refl 1)
  · intro hr
    exact one_returned_any _ mem0 s hi ho hr
  · intro l hl
    refine ⟨?_, ?_, ?_⟩
    · have h1 := schedule_length_le _ mem0 acts s h
      have h2 := pulled_le_length _ mem0 l hl s hi
      simp only at h1
      omega
    · exact one_calls_initial _ mem0 l hl s hi ho
    · intro hr
      have := one_returned _ mem0 l hl s hi ho hr
      exact ⟨this.1, this.2.2⟩

/-- C9 (slice adapters).  For a slice `s` of length `n` and any consumer, let `k` be the first
index at which the consumer answers false (`k = n` if there is none).  SliceIdx calls the
consumer with `(i, &s[i])` for `i = 0, 1, ...` in ascending order, `min n (k + 1)` times in
all, and Slice does the same with `&s[i]` alone.  A write through the pointer yielded for
index `i` is a write to slot `i` of the slice and leaves the other slots and the length as
they are. -/
theorem slice_adapters_in_order (s : List T)
    (yield : Nat → Ptr → σ → σ × Bool) (st : σ) (k : Nat) (hk : k ≤ s.length)
    (hbefore : ∀ i, i < k → answerAt (fun i st => yield i ⟨i⟩ st) st i = true)
    (hat : k < s.length → answerAt (fun i st => yield i ⟨i⟩ st) st k = false)
    (yield1 : Ptr → σ → σ × Bool) (st1 : σ) (k1 : Nat) (hk1 : k1 ≤ s.length)
    (hbefore1 : ∀ i, i < k1 → answerAt (fun i st => yield1 ⟨i⟩ st) st1 i = true)
    (hat1 : k1 < s.length → answerAt (fun i st => yield1 ⟨i⟩ st) st1 k1 = false) :
    (SliceIdx s (fun i p => recording (fun ip => yield ip.1 ip.2) (i, p)) (st, [])).2
        = (List.range (min s.length (k + 1))).map (fun i => (i, Ptr.mk i)) ∧
    (Slice s (recording yield1) (st1, [])).2
        = (List.range (min s.length (k1 + 1))).map Ptr.mk ∧
    (∀ i c, i < s.length →
        (Ptr.mk i).load s = s[i]? ∧ (Ptr.mk i).store c s = s.set i c ∧
        (Ptr.mk i).load ((Ptr.mk i).store c s) = some c ∧
        ((Ptr.mk i).store c s).length = s.length ∧
        ∀ j, j ≠ i → (Ptr.mk j).load ((Ptr.mk i).store c s) = (Ptr.mk j).load s) := by
  refine ⟨?_, ?_, ?_⟩
  · have h := rangeLoop_recording_range (fun (ip : Nat × Ptr) => yield ip.1 ip.2)
      (fun i => (i, Ptr.mk i)) st s.length k hk hbefore hat
    simp only [SliceIdx]
    rw [h]
  · have h := rangeLoop_recording_range yield1 Ptr.mk st1 s.length k1 hk1 hbefore1 hat1
    simp only [Slice]
    rw [h]
  · intro i c hi
    refine ⟨rfl, rfl, ?_, ?_, ?_⟩
    · simp [Ptr.load, Ptr.store, hi]
    · simp [Ptr.store]
    · intro j hj
      simp only [Ptr.load, Ptr.store]
      rw [List.getElem?_set_ne (Ne.symm hj)]

/-- An instance of `slice_adapters_in_order`: a slice of four, a consumer of SliceIdx that
stops at index 2 and a consumer of Slice that never stops. -/
theorem slice_adapters_in_order_witness :
    (SliceIdx [(10 : Nat), 20, 30, 40]
        (fun i p => recording (fun ip (st : Nat) => (st + ip.1, decide (ip.1 < 2))) (i, p))
        (0, [])).2
        = (List.range (min [(10 : Nat), 20, 30, 40].length (2 + 1))).map
            (fun i => (i, Ptr.mk i)) ∧
    (Slice [(10 : Nat), 20, 30, 40] (recording (fun _ (st : Nat) => (st + 1, true))) (0, [])).2
        = (List.range (min [(10 : Nat), 20, 30, 40].length (4 + 1))).map Ptr.mk ∧
    (∀ i c, i < [(10 : Nat), 20, 30, 40].length →
        (Ptr.mk i).load [(10 : Nat), 20, 30, 40] = [(10 : Nat), 20, 30, 40][i]? ∧
        (Ptr.mk i).store c [(10 : Nat), 20, 30, 40] = [(10 : Nat), 20, 30, 40].set i c ∧
        (Ptr.mk i).load ((Ptr.mk i).store c [(10 : Nat), 20, 30, 40]) = some c ∧
        ((Ptr.mk i).store c [(10 : Nat), 20, 30, 40]).length
          = [(10 : Nat), 20, 30, 40].length ∧
        ∀ j, j ≠ i → (Ptr.mk j).load ((Ptr.mk i).store c [(10 : Nat), 20, 30, 40])
          = (Ptr.mk j).load [(10 : Nat), 20, 30, 40]) :=
  slice_adapters_in_order [(10 : Nat), 20, 30, 40]
    (fun i _ (st : Nat) => (st + i, decide (i < 2))) 0 2 (by decide)
    (by intro i hi; simp [answerAt]; omega)
    (by intro _; simp [answerAt])
    (fun _ (st : Nat) => (st + 1, true)) 0 4 (by decide)
    (by intro i _; simp [answerAt])
    (by intro h; simp at h)

/-- C3, as stated, fails: with `MaxGoroutines = -1` the channel cannot be made and the call
panics, while with the default worker count (here 8) it sets up. -/
theorem forEach_negative_panics :
    SeqIterator2.ForEach (σ := Unit) 8 { MaxGoroutines := -1 }
        (Source.ofList [((0 : Nat), (0 : Nat))]) (fun _ _ st => (st, true)) = none ∧
    (SeqIterator2.ForEach (σ := Unit) 8 { MaxGoroutines := 8 }
        (Source.ofList [((0 : Nat), (0 : Nat))]) (fun _ _ st => (st, true))).isSome = true := by
  constructor
  · rfl
  · rfl

/-- C3, amended.  With `MaxGoroutines = 0` and a default worker count `d ≥ 1`, ForEach does not
panic and sets up exactly as with `MaxGoroutines = d`: the capacity of the queue and the number
of tasks are `d`. -/
theorem forEach_zero_is_default (d : Int) (hd : 1 ≤ d) (input : Source (T1 × T2))
    (f : T1 → T2 → σ → σ × Bool) (mem0 : σ) :
    SeqIterator2.ForEach d { MaxGoroutines := 0 } input f
      = SeqIterator2.ForEach d { MaxGoroutines := d } input f ∧
    ∃ p, SeqIterator2.ForEach d { MaxGoroutines := 0 } input f = some p ∧
      p.maxGoroutines = d.toNat ∧ (p.start mem0).tasks.length = d.toNat := by
  have h0 : ¬ d = 0 := by omega
  have h1 : ¬ d < 0 := by omega
  refine ⟨?_, ⟨{ maxGoroutines := d.toNat, input := input, f := fun v => f v.1 v.2 },
    ?_, rfl, ?_⟩⟩
  · simp [SeqIterator2.ForEach, h0, h1]
  · simp only [SeqIterator2.ForEach, beq_self_eq_true, if_true, h1, if_false]
  · simp [Setup.start]

/-- An instance of `forEach_zero_is_default`: the default worker count is 8. -/
theorem forEach_zero_is_default_witness :
    SeqIterator2.ForEach 8 { MaxGoroutines := 0 } (Source.ofList [((1 : Nat), (2 : Nat))])
        (fun _ _ (st : Nat) => (st + 1, true))
      = SeqIterator2.ForEach 8 { MaxGoroutines := 8 } (Source.ofList [((1 : Nat), (2 : Nat))])
        (fun _ _ (st : Nat) => (st + 1, true)) ∧
    ∃ p, SeqIterator2.ForEach 8 { MaxGoroutines := 0 } (Source.ofList [((1 : Nat), (2 : Nat))])
        (fun _ _ (st : Nat) => (st + 1, true)) = some p ∧
      p.maxGoroutines = (8 : Int).toNat ∧ (p.start 0).tasks.length = (8 : Int).toNat :=
  forEach_zero_is_default 8 (by decide) _ _ 0

/-- C5 (in-place mutation).  For a slice `s`, a value `c`, a default worker count `d ≥ 1` and a
configured worker count `m` (`m = 0` is the zero value, which `ForEachSeq` uses), running
ForEach over `Slice(s)` with the callback `*p = c; return true` sets up without panic, and in
every run: the schedule is bounded, some goroutine can move until all tasks have ended, and
when all tasks have ended the slice has its length and holds `c` in every slot. -/
theorem forEach_slice_sets_all (d : Int) (hd : 1 ≤ d) (m : Nat) (s : List T) (c : T) :
    ForEachSeq d (Source.ofList (collect (Slice s))) (setTo c)
      = SeqIterator.ForEach d { MaxGoroutines := 0 } (Source.ofList (collect (Slice s)))
          (setTo c) ∧
    ∃ p, SeqIterator.ForEach d { MaxGoroutines := (m : Int) }
        (Source.ofList (collect (Slice s))) (setTo c) = some p ∧
      p.maxGoroutines = (if m = 0 then d.toNat else m) ∧
      ∀ acts st, p.exec (p.start s) acts = some st →
        acts.length ≤ 5 * s.length + 2 * p.maxGoroutines + 1 ∧
        (st.returned = false → ∃ a st', p.step st a = some st') ∧
        (st.returned = true → st.mem = List.replicate s.length c) := by
  refine ⟨rfl, ?_⟩
  have hsetup : SeqIterator.ForEach d { MaxGoroutines := (m : Int) }
      (Source.ofList (collect (Slice s))) (setTo c)
      = some { maxGoroutines := (if m = 0 then d.toNat else m),
               input := fun i => (Source.ofList (collect (Slice s)) i).map (fun v => (v, ())),
               f := fun v => setTo c v.1 } := by
    by_cases hm : m = 0
    · subst hm
      have h1 : ¬ d < 0 := by omega
      simp [SeqIterator.ForEach, SeqIterator2.ForEach, h1]
    · have h := forEach_pos d m (by omega)
        (fun i => (Source.ofList (collect (Slice s)) i).map (fun v => (v, ())))
        (fun v (_ : Unit) => setTo c v)
      simp only [SeqIterator.ForEach, h, if_neg hm]
  refine ⟨_, hsetup, rfl, ?_⟩
  intro acts st h
  have hpos : 1 ≤ (if m = 0 then d.toNat else m) := by
    split <;> omega
  have hin : (fun i => (Source.ofList (collect (Slice s)) i).map (fun v => (v, ())))
      = Source.ofList (((List.range s.length).map Ptr.mk).map (fun v => (v, ()))) := by
    rw [ofList_map, collect_slice]
  have hi := inv_exec _ s acts st h
  refine ⟨?_, ?_, ?_⟩
  · have h1 := schedule_length_le _ s acts st h
    have h2 := pulled_le_length _ s _ hin st hi
    simp only [List.length_map, List.length_range] at h1 h2
    simp only
    omega
  · exact can_step _ s st hi hpos
  · intro hr
    have hc := complete_of_returned _ s _ hin hpos (fun _ _ => rfl) acts st h hr
    rw [hi.memfold]
    exact applyAll_setTo_all c s _ hc.2.2.1

/-- An instance of `forEach_slice_sets_all`: a slice of five integers set to 0 by 64 workers. -/
theorem forEach_slice_sets_all_witness :
    ForEachSeq 8 (Source.ofList (collect (Slice [(3 : Int), 1, 4, 1, 5]))) (setTo (0 : Int))
      = SeqIterator.ForEach 8 { MaxGoroutines := 0 }
          (Source.ofList (collect (Slice [(3 : Int), 1, 4, 1, 5]))) (setTo (0 : Int)) ∧
    ∃ p, SeqIterator.ForEach 8 { MaxGoroutines := ((64 : Nat) : Int) }
        (Source.ofList (collect (Slice [(3 : Int), 1, 4, 1, 5]))) (setTo (0 : Int)) = some p ∧
      p.maxGoroutines = (if 64 = 0 then (8 : Int).toNat else 64) ∧
      ∀ acts st, p.exec (p.start [(3 : Int), 1, 4, 1, 5]) acts = some st →
        acts.length ≤ 5 * [(3 : Int), 1, 4, 1, 5].length + 2 * p.maxGoroutines + 1 ∧
        (st.returned = false → ∃ a st', p.step st a = some st') ∧
        (st.returned = true → st.mem = List.replicate [(3 : Int), 1, 4, 1, 5].length 0) :=
  forEach_slice_sets_all 8 (by decide) 64 [(3 : Int), 1, 4, 1, 5] 0

/-- C6, as stated, fails.  One worker, the sequence (0,0), (1,1), a callback that always
answers "stop": after the schedule pull, send, worker (four times) the only task has ended, so
ForEach has returned, while the bridging goroutine stands at the head of its loop; it then
pulls the second item from the source and pushes it into the queue. -/
theorem forEach_returns_before_bridge_ends :
    ∃ p s s', SeqIterator2.ForEach (σ := Unit) 8 { MaxGoroutines := 1 }
        (Source.ofList [((0 : Nat), (0 : Nat)), (1, 1)]) (fun _ _ st => (st, false)) = some p ∧
      p.exec (p.start ()) [.pull, .send, .worker 0, .worker 0, .worker 0, .worker 0] = some s ∧
      s.returned = true ∧ s.bridge = .ranging ∧ s.pulled = 1 ∧ s.sendCh = [] ∧
      p.exec s [.pull, .send] = some s' ∧ s'.pulled = 2 ∧ s'.sendCh = [(1, 1)] :=
  ⟨_, _, _, rfl, rfl, rfl, rfl, rfl, rfl, rfl, rfl, rfl⟩

/-- C6, amended.  For a worker count `m ≥ 1`, any sequence and any callback: when ForEach
returns, all `m` tasks have ended and the stop signal has been raised.  The bridging goroutine
is not waited for.  From then on it alone moves and the callback is not entered again; as
long as it has not ended it can move, by a pull or by the stop case of its `select`, and it
ends: every continuation has at most `2 * (m - len(sendCh)) + 2` steps, in which the goroutine
pulls at most `m - len(sendCh) + 1` further items and pushes at most `m - len(sendCh)` of
them; at every moment it can end within two steps without a further push; and a continuation
that cannot be prolonged ends with the goroutine ended and `sendCh` closed. -/
theorem forEach_returned_tasks_ended (d : Int) (m : Nat) (hm : 1 ≤ m)
    (input : Source (T1 × T2)) (f : T1 → T2 → σ → σ × Bool) (mem0 : σ) :
    ∃ p, SeqIterator2.ForEach d { MaxGoroutines := (m : Int) } input f = some p ∧
      ∀ acts s, p.exec (p.start mem0) acts = some s → s.returned = true →
        s.tasks = List.replicate m .finished ∧ s.stopChClosed = true ∧
        ∀ more s', p.exec s more = some s' →
          s'.tasks = s.tasks ∧ s'.calls = s.calls ∧ s'.mem = s.mem ∧
          more.length ≤ 2 * (m - s.sendCh.length) + 2 ∧
          s'.pulled ≤ s.pulled + (m - s.sendCh.length) + 1 ∧
          s'.sendCh.length = s.sendCh.length + more.count Action.send ∧
          s'.sendCh.length ≤ m ∧
          (s'.bridge ≠ .finished →
            ∃ a s'', p.step s' a = some s'' ∧ (a = .pull ∨ a = .stop)) ∧
          (∃ rest s'', p.exec s' rest = some s'' ∧ s''.bridge = .finished ∧
            rest.length ≤ 2 ∧ s''.sendCh = s'.sendCh) ∧
          ((∀ a, p.step s' a = none) → s'.bridge = .finished ∧ s'.sendChClosed = true) := by
  refine ⟨_, forEach_pos d m hm _ f, ?_⟩
  intro acts s h hr
  have hi := inv_exec _ mem0 acts s h
  have hall := all_finished s hr
  have hlen : s.tasks.length = m := hi.tasks_len
  have hstop : s.stopChClosed = true := by
    cases ht : s.tasks with
    | nil =>
      rw [ht] at hlen
      simp at hlen
      omega
    | cons w ws =>
      have hw : w ∈ s.tasks := by simp [ht]
      exact hi.fin_stop w hw (hall w hw)
  refine ⟨?_, hstop, ?_⟩
  · rw [List.eq_replicate_iff]
    exact ⟨hlen, hall⟩
  · intro more s' hmore
    obtain ⟨_, k2, k3, _, k5, _, k6, k7, k8⟩ := returned_exec _ s s' more hr hmore
    have hi' := exec_induction _ (Inv _ mem0)
      (fun s a s' hi hs => inv_step _ mem0 s s' a hi hs) s s' more hi hmore
    have hstop' : s'.stopChClosed = true := by
      obtain ⟨w, hw, hf⟩ := hi.stop_fin hstop
      rw [← k2] at hw
      exact hi'.fin_stop w hw hf
    have hbuf : s'.sendCh.length ≤ m := hi'.buf_le
    have hcan := bridge_can_step
      { maxGoroutines := m, input := input, f := fun (v : T1 × T2) => f v.1 v.2 } s' hstop'
    refine ⟨k2, k3, k5, ?_, ?_, k8, hbuf, hcan,
      bridge_can_end
        { maxGoroutines := m, input := input, f := fun (v : T1 × T2) => f v.1 v.2 } s' hstop',
      ?_⟩
    · have hb := bridgeSteps_le
        { maxGoroutines := m, input := input, f := fun (v : T1 × T2) => f v.1 v.2 } s
      simp only at hb
      omega
    · have hb := pullsLeft_le
        { maxGoroutines := m, input := input, f := fun (v : T1 × T2) => f v.1 v.2 } s
      simp only at hb
      omega
    · intro hnone
      have hfin : s'.bridge = .finished := by
        by_contra hne
        obtain ⟨a, s'', hs'', _⟩ := hcan hne
        rw [hnone a] at hs''
        cases hs''
      exact ⟨hfin, hi'.closed_iff.mpr hfin⟩

/-- An instance of `forEach_returned_tasks_ended`: two workers, three items, a callback that
stops on the second item. -/
theorem forEach_returned_tasks_ended_witness :
    ∃ p, SeqIterator2.ForEach 8 { MaxGoroutines := ((2 : Nat) : Int) }
        (Source.ofList [((0 : Nat), (0 : Nat)), (1, 1), (2, 2)])
        (fun a _ (st : Nat) => (st + 1, decide (a < 1))) = some p ∧
      ∀ acts s, p.exec (p.start 0) acts = some s → s.returned = true →
        s.tasks = List.replicate 2 .finished ∧ s.stopChClosed = true ∧
        ∀ more s', p.exec s more = some s' →
          s'.tasks = s.tasks ∧ s'.calls = s.calls ∧ s'.mem = s.mem ∧
          more.length ≤ 2 * (2 - s.sendCh.length) + 2 ∧
          s'.pulled ≤ s.pulled + (2 - s.sendCh.length) + 1 ∧
          s'.sendCh.length = s.sendCh.length + more.count Action.send ∧
          s'.sendCh.length ≤ 2 ∧
          (s'.bridge ≠ .finished →
            ∃ a s'', p.step s' a = some s'' ∧ (a = .pull ∨ a = .stop)) ∧
          (∃ rest s'', p.exec s' rest = some s'' ∧ s''.bridge = .finished ∧
            rest.length ≤ 2 ∧ s''.sendCh = s'.sendCh) ∧
          ((∀ a, p.step s' a = none) → s'.bridge = .finished ∧ s'.sendChClosed = true) :=
  forEach_returned_tasks_ended 8 2 (by decide) _ _ 0

/-- C8, as stated, fails in both bounds.  With one worker and a callback that stops on the
first of three items, the stop signal is raised by the last step of the only task and no
callback is entered after it: zero extra items.  With two workers (bound 4) and a callback that
stops on the first of seven items, the `select` can take the send case five times after the
signal and the other worker is called on five more items. -/
theorem calls_after_stop_out_of_bounds :
    (∃ p s0 s1, SeqIterator2.ForEach (σ := Unit) 8 { MaxGoroutines := 1 }
        (Source.ofList [((0 : Nat), (0 : Nat)), (1, 1), (2, 2)])
        (fun a _ st => (st, decide (a ≠ 0))) = some p ∧
      p.exec (p.start ()) [.pull, .send, .worker 0, .worker 0, .worker 0] = some s0 ∧
      s0.stopChClosed = false ∧ p.exec s0 [.worker 0] = some s1 ∧
      s1.stopChClosed = true ∧ s1.returned = true ∧
      s0.calls = [(0, 0)] ∧ s1.calls = [(0, 0)]) ∧
    (∃ p s0 s1, SeqIterator2.ForEach (σ := Unit) 8 { MaxGoroutines := 2 }
        (Source.ofList [((0 : Nat), (0 : Nat)), (1, 1), (2, 2), (3, 3), (4, 4), (5, 5), (6, 6)])
        (fun a _ st => (st, decide (a ≠ 0))) = some p ∧
      p.exec (p.start ()) [.pull, .send, .worker 0, .worker 0, .worker 0, .worker 0] = some s0 ∧
      s0.stopChClosed = true ∧ s0.calls = [(0, 0)] ∧
      p.exec s0 [.pull, .send, .worker 1, .worker 1, .worker 1,
        .pull, .send, .worker 1, .worker 1, .worker 1,
        .pull, .send, .worker 1, .worker 1, .worker 1,
        .pull, .send, .worker 1, .worker 1, .worker 1,
        .pull, .send, .worker 1, .worker 1, .worker 1] = some s1 ∧
      s1.calls = [(0, 0), (1, 1), (2, 2), (3, 3), (4, 4), (5, 5)] ∧
      s1.rets = [(0, 0), (1, 1), (2, 2), (3, 3), (4, 4), (5, 5)] ∧
      2 * 2 < s1.calls.length - s0.calls.length) :=
  ⟨⟨_, _, _, rfl, rfl, rfl, rfl, rfl, rfl, rfl, rfl⟩,
   ⟨_, _, _, rfl, rfl, rfl, rfl, rfl, rfl, rfl, by decide⟩⟩

/-- C8, amended.  For a worker count `m ≥ 1`, in a state in which the stop signal has been
raised, at most `m - 1` tasks have an item in hand that they have not entered the callback
with, and the queue holds at most `m` items.  From then on the callback is entered on at most
these items and the items the bridging goroutine pushes afterwards, so on at most `2 * m - 1`
items plus the pushes after the signal; there may be none. -/
theorem calls_after_stop_le (d : Int) (m : Nat) (hm : 1 ≤ m)
    (input : Source (T1 × T2)) (f : T1 → T2 → σ → σ × Bool) (mem0 : σ) :
    ∃ p, SeqIterator2.ForEach d { MaxGoroutines := (m : Int) } input f = some p ∧
      ∀ acts s, p.exec (p.start mem0) acts = some s → s.stopChClosed = true →
        s.holding ≤ m - 1 ∧ s.sendCh.length ≤ m ∧
        ∀ more s', p.exec s more = some s' →
          ∃ extra, s'.calls = s.calls ++ extra ∧
            extra.length ≤ s.holding + s.sendCh.length + more.count Action.send ∧
            extra.length ≤ 2 * m - 1 + more.count Action.send := by
  refine ⟨_, forEach_pos d m hm _ f, ?_⟩
  intro acts s h hstop
  have hi := inv_exec _ mem0 acts s h
  have hh := holding_lt_of_stop _ mem0 s hi hstop
  have hbuf : s.sendCh.length ≤ m := hi.buf_le
  simp only at hh
  refine ⟨by omega, hbuf, ?_⟩
  intro more s' hmore
  obtain ⟨t, h1, h2⟩ := exec_calls _ s s' more hmore
  exact ⟨t, h1, by omega, by omega⟩

/-- An instance of `calls_after_stop_le`: two workers, three items, a callback that stops on
the first item. -/
theorem calls_after_stop_le_witness :
    ∃ p, SeqIterator2.ForEach 8 { MaxGoroutines := ((2 : Nat) : Int) }
        (Source.ofList [((0 : Nat), (0 : Nat)), (1, 1), (2, 2)])
        (fun a _ (st : Nat) => (st + 1, decide (a ≠ 0))) = some p ∧
      ∀ acts s, p.exec (p.start 0) acts = some s → s.stopChClosed = true →
        s.holding ≤ 2 - 1 ∧ s.sendCh.length ≤ 2 ∧
        ∀ more s', p.exec s more = some s' →
          ∃ extra, s'.calls = s.calls ++ extra ∧
            extra.length ≤ s.holding + s.sendCh.length + more.count Action.send ∧
            extra.length ≤ 2 * 2 - 1 + more.count Action.send :=
  calls_after_stop_le 8 2 (by decide) _ _ 0

/-- C10, as stated, fails.  One worker, three items, a callback that always answers "stop":
after the schedule pull, send, worker (four times), pull the stop signal is raised and the
bridging goroutine is in its `select` holding the second item while the queue has room.  Both
cases are ready; the send case can be taken, which pushes the item after the signal. -/
theorem select_can_push_after_stop :
    ∃ p s s1 s2, SeqIterator2.ForEach (σ := Unit) 8 { MaxGoroutines := 1 }
        (Source.ofList [((5 : Nat), (5 : Nat)), (6, 6), (7, 7)])
        (fun _ _ st => (st, false)) = some p ∧
      p.exec (p.start ()) [.pull, .send, .worker 0, .worker 0, .worker 0, .worker 0, .pull] = some s ∧
      s.stopChClosed = true ∧ s.bridge = .selecting (6, 6) ∧ s.sendCh = [] ∧
      p.step s .stop = some s1 ∧ s1.bridge = .finished ∧
      p.step s .send = some s2 ∧ s2.sendCh = [(6, 6)] ∧ s2.bridge = .ranging :=
  ⟨_, _, _, _, rfl, rfl, rfl, rfl, rfl, rfl, rfl, rfl, rfl, rfl⟩

/-- C10, amended.  For a worker count `m ≥ 1`, in every state of a run in which the stop signal
has been raised and the bridging goroutine is in its `select` holding an item `v`: the stop
case can be taken, and then the goroutine has ended, `sendCh` is closed, nothing was pushed and
the goroutine has no further step; when the queue is full the send case cannot be taken; when
the queue has room the send case can be taken as well, and it pushes `v`. -/
theorem select_after_stop (d : Int) (m : Nat) (hm : 1 ≤ m)
    (input : Source (T1 × T2)) (f : T1 → T2 → σ → σ × Bool) (mem0 : σ) :
    ∃ p, SeqIterator2.ForEach d { MaxGoroutines := (m : Int) } input f = some p ∧
      ∀ acts s v, p.exec (p.start mem0) acts = some s → s.stopChClosed = true →
        s.bridge = .selecting v →
        (∃ s1, p.step s .stop = some s1 ∧ s1.bridge = .finished ∧ s1.sendChClosed = true ∧
          s1.sendCh = s.sendCh ∧ s1.pulled = s.pulled ∧
          p.step s1 .pull = none ∧ p.step s1 .send = none ∧ p.step s1 .stop = none) ∧
        (m ≤ s.sendCh.length → p.step s .send = none) ∧
        (s.sendCh.length < m →
          ∃ s2, p.step s .send = some s2 ∧ s2.sendCh = s.sendCh ++ [v] ∧
            s2.bridge = .ranging) := by
  refine ⟨_, forEach_pos d m hm _ f, ?_⟩
  intro acts s v _ hstop hb
  refine ⟨⟨{ s with bridge := .finished, sendChClosed := true },
    by simp [Setup.step, hb, hstop], rfl, rfl, rfl, rfl, ?_, ?_, ?_⟩, ?_, ?_⟩
  · simp [Setup.step]
  · simp [Setup.step]
  · simp [Setup.step]
  · intro hfull
    simp only [Setup.step, hb]
    rw [if_neg (by omega)]
  · intro hroom
    exact ⟨{ s with sendCh := s.sendCh ++ [v], bridge := .ranging },
      by simp [Setup.step, hb, hroom], rfl, rfl⟩

/-- An instance of `select_after_stop`: two workers, three items, a callback that stops on the
first item. -/
theorem select_after_stop_witness :
    ∃ p, SeqIterator2.ForEach 8 { MaxGoroutines := ((2 : Nat) : Int) }
        (Source.ofList [((0 : Nat), (0 : Nat)), (1, 1), (2, 2)])
        (fun a _ (st : Nat) => (st + 1, decide (a ≠ 0))) = some p ∧
      ∀ acts s v, p.exec (p.start 0) acts = some s → s.stopChClosed = true →
        s.bridge = .selecting v →
        (∃ s1, p.step s .stop = some s1 ∧ s1.bridge = .finished ∧ s1.sendChClosed = true ∧
          s1.sendCh = s.sendCh ∧ s1.pulled = s.pulled ∧
          p.step s1 .pull = none ∧ p.step s1 .send = none ∧ p.step s1 .stop = none) ∧
        (2 ≤ s.sendCh.length → p.step s .send = none) ∧
        (s.sendCh.length < 2 →
          ∃ s2, p.step s .send = some s2 ∧ s2.sendCh = s.sendCh ++ [v] ∧
            s2.bridge = .ranging) :=
  select_after_stop 8 2 (by decide) _ _ 0

/-- C7 (infinite sequence with early stop).  Over the naturals with a callback that stops when
it sees 100, for a worker count `m ≥ 1`, ForEach sets up without panic and:

* in every state of every run some goroutine can move as long as some task has not ended, so a
  run that stops has returned;
* a run pulls no more items than it has steps, and it has at most `9 * m + 504` steps plus
  five for each late send, a late send being a send case taken by the `select` when the stop
  signal is raised or a task already has item 100 in hand or has left its loop;
* with one worker there is no late send that prolongs the run: every run has at most 518 steps
  and pulls at most 103 items, and when the task has ended the callback has been entered on
  0, 1, ..., 100 and on nothing else;
* a run that does not end takes a late send again and again, and, when the scheduler starves
  no task, it takes the send case of the `select` again and again while the stop case is
  ready.  The `select` of Go chooses among its ready cases at random, so an execution of the
  program does not do that: it returns after finitely many steps, having pulled finitely
  many items. -/
theorem forEach_naturals_returns (d : Int) (m : Nat) (hm : 1 ≤ m) (g : Nat → σ → σ)
    (mem0 : σ) :
    ∃ p, SeqIterator.ForEach d { MaxGoroutines := (m : Int) } naturals (stopAt100 g) = some p ∧
      (∀ acts s, p.exec (p.start mem0) acts = some s →
        (s.returned = false → ∃ a s', p.step s a = some s') ∧
        s.pulled ≤ acts.length ∧
        acts.length ≤ 9 * m + 504 + 5 * p.lateSends (p.start mem0) acts ∧
        (m = 1 → acts.length ≤ 518 ∧ s.pulled ≤ 103 ∧
          (s.returned = true → s.calls = (List.range 101).map (fun i => (i, ()))))) ∧
      (∀ (run : Nat → State σ (Nat × Unit)) (sched : Nat → Action),
        run 0 = p.start mem0 → (∀ n, p.step (run n) (sched n) = some (run (n + 1))) →
        (∀ N, ∃ n, N ≤ n ∧ (run n).lateSend (sched n) = true) ∧
        (FairToTasks p run sched →
          ∀ N, ∃ n, N ≤ n ∧ (run n).raceSend (sched n) = true)) := by
  have hsetup : SeqIterator.ForEach d { MaxGoroutines := (m : Int) } naturals (stopAt100 g)
      = some { maxGoroutines := m, input := fun i => (naturals i).map (fun v => (v, ())),
               f := fun v => stopAt100 g v.1 } :=
    forEach_pos d m hm (fun i => (naturals i).map (fun v => (v, ())))
      (fun v (_ : Unit) => stopAt100 g v)
  refine ⟨_, hsetup, ?_, ?_⟩
  · intro acts s h
    have hi := inv_exec _ mem0 acts s h
    refine ⟨can_step _ mem0 s hi hm, ?_, ?_, ?_⟩
    · have := exec_pulled _ _ s acts h
      simpa [Setup.start] using this
    · have hb := exec_stepsLeft g _ mem0 rfl rfl acts _ s (inv_start _ mem0)
        (stopped100_start _ mem0) h
      rw [stepsLeft_start] at hb
      simp only at hb
      omega
    · intro hm1
      subst hm1
      obtain ⟨_, ho⟩ := invOne_exec _ mem0 rfl acts s h
      have hb := one_naturals_bounds g _ mem0 rfl rfl rfl s hi ho
      refine ⟨?_, hb.2, ?_⟩
      · have h1 := schedule_length_le _ mem0 acts s h
        simp only at h1
        omega
      · intro hr
        exact one_naturals_returned g _ mem0 rfl rfl s hi ho hr
  · intro run sched h0 hstep
    exact ⟨fun N => late_again_and_again g _ mem0 rfl rfl run sched h0 hstep N,
      fun hfair N => race_again_and_again g _ mem0 rfl rfl run sched h0 hstep hfair N⟩

/-- An instance of `forEach_naturals_returns`: two workers, a callback that adds up. -/
theorem forEach_naturals_returns_witness :
    ∃ p, SeqIterator.ForEach 8 { MaxGoroutines := ((2 : Nat) : Int) } naturals
        (stopAt100 (fun v (st : Nat) => st + v)) = some p ∧
      (∀ acts s, p.exec (p.start 0) acts = some s →
        (s.returned = false → ∃ a s', p.step s a = some s') ∧
        s.pulled ≤ acts.length ∧
        acts.length ≤ 9 * 2 + 504 + 5 * p.lateSends (p.start 0) acts ∧
        (2 = 1 → acts.length ≤ 518 ∧ s.pulled ≤ 103 ∧
          (s.returned = true → s.calls = (List.range 101).map (fun i => (i, ()))))) ∧
      (∀ (run : Nat → State Nat (Nat × Unit)) (sched : Nat → Action),
        run 0 = p.start 0 → (∀ n, p.step (run n) (sched n) = some (run (n + 1))) →
        (∀ N, ∃ n, N ≤ n ∧ (run n).lateSend (sched n) = true) ∧
        (FairToTasks p run sched →
          ∀ N, ∃ n, N ≤ n ∧ (run n).raceSend (sched n) = true)) :=
  forEach_naturals_returns 8 2 (by decide) (fun v (st : Nat) => st + v) 0


end Iter
